import Mathlib

/-!
# Tic-tac-toe: board state and negamax search

A shallow embedding of `classes/TicTacToe.cpp`.  The `3 x 3` array `_grid[y][x]`
of holders becomes an array of optional owners, the
in-place mutation done by the search becomes explicit state passing, and the
recursion of `negamax` is bounded by a fuel argument.
-/

namespace TicTacToe

/-! ## Data model -/

/-- Index of the AI player (`const int AI_PLAYER = 1`). -/
def AI_PLAYER : Fin 2 := 1

/-- Index of the human player (`const int HUMAN_PLAYER = 0`). -/
def HUMAN_PLAYER : Fin 2 := 0

/-- A C array of three elements. -/
structure Arr3 (α : Type) where
  e0 : α
  e1 : α
  e2 : α
  deriving DecidableEq, Repr

/-- Read `a[i]`. -/
def Arr3.get {α : Type} (a : Arr3 α) (i : Fin 3) : α :=
  if i.val = 0 then a.e0 else if i.val = 1 then a.e1 else a.e2

/-- Write `a[i] = v`. -/
def Arr3.set {α : Type} (a : Arr3 α) (i : Fin 3) (v : α) : Arr3 α :=
  if i.val = 0 then { a with e0 := v } else if i.val = 1 then { a with e1 := v }
  else { a with e2 := v }

/-- The grid `_grid[3][3]`, indexed `_grid[y][x]`: each holder is either empty
(`bit() == nullptr`, here `none`) or holds a bit whose owner has the given
player number. -/
abbrev Grid := Arr3 (Arr3 (Option (Fin 2)))

/-- The holder content at row `y`, column `x`: `_grid[y][x].bit()` with its
owner (`getHolderAt(x, y)` of the engine). -/
def Grid.at (g : Grid) (y x : Fin 3) : Option (Fin 2) := (g.get y).get x

/-- The part of the game object the code reads and writes: the grid and the
player whose turn it is (`getCurrentPlayer()->playerNumber()`). -/
structure Game where
  grid : Grid
  currentPlayer : Fin 2

/-- The cells in the order of the loops `for y in 0..2, for x in 0..2`,
each given as `(y, x)`. -/
def rowMajor : List (Fin 3 × Fin 3) :=
  [(0, 0), (0, 1), (0, 2), (1, 0), (1, 1), (1, 2), (2, 0), (2, 1), (2, 2)]

/-- The grid after `setUpBoard` or `stopGame`: every holder empty. -/
def emptyGrid : Grid :=
  let row : Arr3 (Option (Fin 2)) := ⟨none, none, none⟩
  ⟨row, row, row⟩

/-- Modelled from the spec: the engine's `BitHolder::setBit` (its source is not
part of the repository files), the `place` of the spec: the holder at column `x`,
row `y` afterwards holds a bit owned by `owner`; no other holder changes. -/
def setBit (g : Grid) (x y : Fin 3) (owner : Fin 2) : Grid :=
  g.set y ((g.get y).set x (some owner))

/-- Modelled from the spec: the engine's `BitHolder::destroyBit` (its source is
not part of the repository files), the `clear` of the spec: removes any occupant
of the holder at column `x`, row `y`; no other holder changes. -/
def destroyBit (g : Grid) (x y : Fin 3) : Grid :=
  g.set y ((g.get y).set x none)

/-- Modelled from the spec: the engine's `Game::endTurn` (its source is not part
of the repository files), the `advanceTurn` of the spec: the turn passes to the
other of the two players; the grid is not touched. -/
def endTurn (s : Game) : Game :=
  { s with currentPlayer := 1 - s.currentPlayer }

/-! ## Board queries -/

/-- The function `TicTacToe::ownerAt`: `y = index / 3`, `x = index % 3`, the owner of the bit
at `_grid[y][x]` or null. -/
def ownerAt (g : Grid) (index : Fin 9) : Option (Fin 2) :=
  g.at ⟨index.val / 3, by omega⟩ ⟨index.val % 3, by omega⟩

/-- The table `winningTriples[8][3]` of `checkForWinner`. -/
def winningTriples : List (Fin 9 × Fin 9 × Fin 9) :=
  [(0, 1, 2), (3, 4, 5), (6, 7, 8), (0, 3, 6), (1, 4, 7), (2, 5, 8), (0, 4, 8), (2, 4, 6)]

/-- The body of the loop of `checkForWinner` for one triple: the owner `p1` when
`p1 != nullptr && p1 == p2 && p2 == p3`. -/
def tripleOwner (g : Grid) (t : Fin 9 × Fin 9 × Fin 9) : Option (Fin 2) :=
  let p1 := ownerAt g t.1
  let p2 := ownerAt g t.2.1
  let p3 := ownerAt g t.2.2
  if p1 ≠ none ∧ p1 = p2 ∧ p2 = p3 then p1 else none

/-- The function `TicTacToe::checkForWinner`: the triples are tried in table order and the
first one that is owned by a single player returns that player. -/
def checkForWinner (g : Grid) : Option (Fin 2) :=
  winningTriples.findSome? (tripleOwner g)

/-- The function `TicTacToe::checkForDraw`: false as soon as an empty holder is met, true
when the loops run to their end. -/
def checkForDraw (g : Grid) : Bool :=
  rowMajor.all fun c => (g.at c.1 c.2).isSome

/-! ## Serialisation -/

/-- The function `TicTacToe::initialStateString`. -/
def initialStateString : String := "000000000"

/-- The function `TicTacToe::stateString`: one piece of text per cell, appended in loop
order: `"0"` for an empty holder, else `std::to_string(playerNum + 1)`. -/
def stateString (g : Grid) : String :=
  rowMajor.foldl
    (fun state c =>
      match g.at c.1 c.2 with
      | none => state ++ "0"
      | some playerNum => state ++ toString (playerNum.val + 1))
    ""

/-- One iteration of the second loop of `setStateString` for the character `ch`
read at index `i`: `playerNumber = ch - 48`, and a piece of player
`playerNumber - 1` is set when `playerNumber` is 1 or 2. -/
def setStateCell (g : Grid) (i : Fin 9) (ch : Char) : Grid :=
  let playerNumber : Int := (ch.toNat : Int) - (('0' : Char).toNat : Int)
  if playerNumber = 1 ∨ playerNumber = 2 then
    setBit g ⟨i.val % 3, by omega⟩ ⟨i.val / 3, by omega⟩ (Fin.ofNat (playerNumber - 1).toNat)
  else g

/-- The conversion `(int)` of a `size_t` to the 32-bit `int`: the value modulo
`2^32`, read as a two's-complement number. -/
def toInt32 (n : Nat) : Int :=
  if n % 4294967296 < 2147483648 then ((n % 4294967296 : Nat) : Int)
  else ((n % 4294967296 : Nat) : Int) - 4294967296

/-- The function `TicTacToe::setStateString`: every holder is emptied, then, for
`i = 0, 1, ...` while `i < 9 && i < (int)s.length()`, the character `s[i]` is
applied to the cell with `y = i / 3`, `x = i % 3`. The text is read as its
sequence of characters. -/
def setStateString (g : Grid) (s : String) : Grid :=
  let cleared := rowMajor.foldl (fun acc c => destroyBit acc c.2 c.1) g
  ((List.finRange 9).takeWhile fun i => decide ((i.val : Int) < toInt32 s.length)).foldl
    (fun acc i =>
      match s.data.get? i.val with
      | some ch => setStateCell acc i ch
      | none => acc)
    cleared

/-! ## Placement -/

/-- The function `TicTacToe::actionForEmptyHolder` on the holder at column `x`, row `y`:
fails on an occupied holder, else sets a piece of the current player there. -/
def actionForEmptyHolder (s : Game) (x y : Fin 3) : Bool × Game :=
  match s.grid.at y x with
  | some _ => (false, s)
  | none => (true, { s with grid := setBit s.grid x y s.currentPlayer })

/-! ## Search -/

/-- The two nested loops of `negamax` over the cells still to visit.  `search`
stands for the recursive call on the grid with the speculative piece; it
returns the score and the grid as the call left it, or `none` when it did not
return.  `bestScore` and `alpha` are the running values. -/
def negamaxLoop (search : Grid → Int → Int → Option (Int × Grid)) (playerNumber : Fin 2)
    (beta : Int) : List (Fin 3 × Fin 3) → Grid → Int → Int → Option (Int × Grid)
  | [], g, bestScore, _ => some (bestScore, g)
  | c :: rest, g, bestScore, alpha =>
    match g.at c.1 c.2 with
    | some _ => negamaxLoop search playerNumber beta rest g bestScore alpha
    | none =>
      match search (setBit g c.2 c.1 playerNumber) (-beta) (-alpha) with
      | none => none
      | some (r, g1) =>
        let score := -r
        let g2 := destroyBit g1 c.2 c.1
        let bestScore' := max bestScore score
        let alpha' := max alpha score
        if alpha' ≥ beta then some (bestScore', g2)
        else negamaxLoop search playerNumber beta rest g2 bestScore' alpha'

/-- The function `negamax`, with the grid passed in and handed back, and with
`fuel` bounding the depth of the recursion (`none` when it is used up). -/
def negamax : Nat → Grid → Fin 2 → Int → Int → Int → Option (Int × Grid)
  | 0, _, _, _, _, _ => none
  | fuel + 1, g, playerNumber, depth, alpha, beta =>
    match checkForWinner g with
    | some winner =>
      if winner = playerNumber then some (10 - depth, g) else some (-10 + depth, g)
    | none =>
      if checkForDraw g then some (0, g)
      else
        let nextPlayer := 1 - playerNumber
        negamaxLoop (fun g' a b => negamax fuel g' nextPlayer (depth + 1) a b)
          playerNumber beta rowMajor g (-1000) alpha

/-- The local variables of `updateAI` that live across iterations, with the
grid: `best` is `none` for `bestX = bestY = -1`, else `(bestY, bestX)`. -/
structure SearchState where
  grid : Grid
  bestScore : Int
  best : Option (Fin 3 × Fin 3)

/-- The inner loop (over `x`) of `updateAI` for the row `y`; it stops at the
`break` taken when the new best score is at least 10.  `search` stands for the
scoring call `negamax(this, nextPlayer, 1, -1000, 1000)` on the grid with the
speculative piece. -/
def updateAIRow (search : Grid → Option (Int × Grid)) (y : Fin 3) :
    List (Fin 3) → SearchState → Option SearchState
  | [], st => some st
  | x :: xs, st =>
    match st.grid.at y x with
    | some _ => updateAIRow search y xs st
    | none =>
      match search (setBit st.grid x y AI_PLAYER) with
      | none => none
      | some (r, g1) =>
        let score := -r
        let g2 := destroyBit g1 x y
        if score > st.bestScore then
          if score ≥ 10 then some ⟨g2, score, some (y, x)⟩
          else updateAIRow search y xs ⟨g2, score, some (y, x)⟩
        else updateAIRow search y xs ⟨g2, st.bestScore, st.best⟩

/-- The outer loop (over `y`) of `updateAI`; after each row it stops at the
`break` taken when the best score is at least 10. -/
def updateAIRows (search : Grid → Option (Int × Grid)) :
    List (Fin 3) → SearchState → Option SearchState
  | [], st => some st
  | y :: ys, st =>
    match updateAIRow search y [0, 1, 2] st with
    | none => none
    | some st' => if st'.bestScore ≥ 10 then some st' else updateAIRows search ys st'

/-- The body of `TicTacToe::updateAI` for a given scoring call `search`: nothing
happens unless it is the AI player's turn; else every empty cell is scored, and
the best cell, when there is one, is played through `actionForEmptyHolder`,
followed by `endTurn` on success. -/
def updateAIWith (search : Grid → Option (Int × Grid)) (s : Game) : Option Game :=
  if s.currentPlayer ≠ AI_PLAYER then some s
  else
    match updateAIRows search [0, 1, 2] ⟨s.grid, -1000, none⟩ with
    | none => none
    | some st =>
      match st.best with
      | none => some { s with grid := st.grid }
      | some (bestY, bestX) =>
        let r := actionForEmptyHolder { s with grid := st.grid } bestX bestY
        if r.1 then some (endTurn r.2) else some r.2

/-- The function `TicTacToe::updateAI`: every candidate is scored by
`-negamax(this, HUMAN_PLAYER, 1, -1000, 1000)`.  The result is `none` when a
call of `negamax` ran out of fuel. -/
def updateAI (fuel : Nat) (s : Game) : Option Game :=
  updateAIWith (fun g => negamax fuel g HUMAN_PLAYER 1 (-1000) 1000) s

/-- The score computed by the loops of `negamax`, with the grid left out: every
iteration works on the grid `g` the loops started from. -/
def scoreLoop (search : Grid → Int → Int → Int) (playerNumber : Fin 2) (beta : Int)
    (g : Grid) : List (Fin 3 × Fin 3) → Int → Int → Int
  | [], bestScore, _ => bestScore
  | c :: rest, bestScore, alpha =>
    match g.at c.1 c.2 with
    | some _ => scoreLoop search playerNumber beta g rest bestScore alpha
    | none =>
      let score := -search (setBit g c.2 c.1 playerNumber) (-beta) (-alpha)
      let bestScore' := max bestScore score
      let alpha' := max alpha score
      if alpha' ≥ beta then bestScore'
      else scoreLoop search playerNumber beta g rest bestScore' alpha'

/-- The score returned by `negamax`, as a function of the grid alone (0 when the
fuel is used up). -/
def negamaxScore : Nat → Grid → Fin 2 → Int → Int → Int → Int
  | 0, _, _, _, _, _ => 0
  | fuel + 1, g, playerNumber, depth, alpha, beta =>
    match checkForWinner g with
    | some winner => if winner = playerNumber then 10 - depth else -10 + depth
    | none =>
      if checkForDraw g then 0
      else
        scoreLoop (fun g' a b => negamaxScore fuel g' (1 - playerNumber) (depth + 1) a b)
          playerNumber beta g rowMajor (-1000) alpha

/-- The selection made by the loops of `updateAI`, with the grid left out and
without the two `break`s: the running best score and best cell after visiting
`cells`, where `score` gives the result of the scoring call on a grid. -/
def selectLoop (score : Grid → Int) (g : Grid) :
    List (Fin 3 × Fin 3) → Int → Option (Fin 3 × Fin 3) → Int × Option (Fin 3 × Fin 3)
  | [], bestScore, best => (bestScore, best)
  | c :: rest, bestScore, best =>
    match g.at c.1 c.2 with
    | some _ => selectLoop score g rest bestScore best
    | none =>
      if -score (setBit g c.2 c.1 AI_PLAYER) > bestScore then
        selectLoop score g rest (-score (setBit g c.2 c.1 AI_PLAYER)) (some c)
      else selectLoop score g rest bestScore best

/-- Number of empty holders of the grid. -/
def countEmpty (g : Grid) : Nat :=
  rowMajor.countP fun c => (g.at c.1 c.2).isNone

/-- The state `updateAI` leaves for the best cell `best` selected on the grid of `s`. -/
def commitBest (s : Game) (best : Option (Fin 3 × Fin 3)) : Game :=
  match best with
  | none => s
  | some c => endTurn ⟨setBit s.grid c.2 c.1 AI_PLAYER, s.currentPlayer⟩

/-! ## The unpruned search, for comparison -/

/-- The loops of the unpruned search: the loops of `negamax` with the test
`alpha >= beta` and its early return taken out. -/
def negamaxUnprunedLoop (search : Grid → Int → Int → Option (Int × Grid))
    (playerNumber : Fin 2) (beta : Int) :
    List (Fin 3 × Fin 3) → Grid → Int → Int → Option (Int × Grid)
  | [], g, bestScore, _ => some (bestScore, g)
  | c :: rest, g, bestScore, alpha =>
    match g.at c.1 c.2 with
    | some _ => negamaxUnprunedLoop search playerNumber beta rest g bestScore alpha
    | none =>
      match search (setBit g c.2 c.1 playerNumber) (-beta) (-alpha) with
      | none => none
      | some (r, g1) =>
        let score := -r
        let g2 := destroyBit g1 c.2 c.1
        let bestScore' := max bestScore score
        let alpha' := max alpha score
        negamaxUnprunedLoop search playerNumber beta rest g2 bestScore' alpha'

/-- The unpruned exhaustive search: the recursion of `negamax` without the
`alpha >= beta` cutoff, every empty cell of every node being explored. -/
def negamaxUnpruned : Nat → Grid → Fin 2 → Int → Int → Int → Option (Int × Grid)
  | 0, _, _, _, _, _ => none
  | fuel + 1, g, playerNumber, depth, alpha, beta =>
    match checkForWinner g with
    | some winner =>
      if winner = playerNumber then some (10 - depth, g) else some (-10 + depth, g)
    | none =>
      if checkForDraw g then some (0, g)
      else
        let nextPlayer := 1 - playerNumber
        negamaxUnprunedLoop (fun g' a b => negamaxUnpruned fuel g' nextPlayer (depth + 1) a b)
          playerNumber beta rowMajor g (-1000) alpha

/-- The running maximum kept by the loops of the unpruned search. -/
def valueLoop (value : Grid → Int) (playerNumber : Fin 2) (g : Grid) :
    List (Fin 3 × Fin 3) → Int → Int
  | [], bestScore => bestScore
  | c :: rest, bestScore =>
    match g.at c.1 c.2 with
    | some _ => valueLoop value playerNumber g rest bestScore
    | none =>
      valueLoop value playerNumber g rest
        (max bestScore (-value (setBit g c.2 c.1 playerNumber)))

/-- The score of the unpruned search as a function of the grid (0 when the
fuel is used up): the depth-discounted minimax value of the position. -/
def minimaxValue : Nat → Grid → Fin 2 → Int → Int
  | 0, _, _, _ => 0
  | fuel + 1, g, playerNumber, depth =>
    match checkForWinner g with
    | some winner => if winner = playerNumber then 10 - depth else -10 + depth
    | none =>
      if checkForDraw g then 0
      else
        valueLoop (fun g' => minimaxValue fuel g' (1 - playerNumber) (depth + 1))
          playerNumber g rowMajor (-1000)

/-! ## Games against the search -/

/-- The states met when the human player, who moves first, plays any empty cell
while the game is not over, and every move of the AI player is the one made by
`updateAI`. -/
inductive Reachable (fuel : Nat) : Game → Prop
  | start : Reachable fuel ⟨emptyGrid, HUMAN_PLAYER⟩
  | human (s : Game) (x y : Fin 3) :
      Reachable fuel s → s.currentPlayer = HUMAN_PLAYER →
      checkForWinner s.grid = none → checkForDraw s.grid = false →
      s.grid.at y x = none →
      Reachable fuel (endTurn (actionForEmptyHolder s x y).2)
  | ai (s s' : Game) :
      Reachable fuel s → s.currentPlayer = AI_PLAYER →
      checkForWinner s.grid = none → checkForDraw s.grid = false →
      updateAI fuel s = some s' →
      Reachable fuel s'

/-! ## A compact form of the search, for evaluation

The grid is held as two numbers, the sets of cells of player 0 and of player 1
(bit `3 * y + x` for the cell at row `y`, column `x`), and a score `v` as the
number `v + 1000`.  The functions below follow `checkForWinner` and `negamax`
step by step on this form. -/

/-- Evaluate `n`, then continue with its value. -/
def force {α : Type} (n : Nat) (k : Nat → α) : α :=
  match n with
  | 0 => k 0
  | m + 1 => k (m + 1)

/-- Bit `i` of `n`. -/
def bitAt (n i : Nat) : Nat := (n >>> i) &&& 1

/-- Index `3 * y + x` of the cell `(y, x)`. -/
def cellIndex (c : Fin 3 × Fin 3) : Nat := 3 * c.1.val + c.2.val

/-- 1 when the holder content `c` is a piece of player `p`, else 0. -/
def cellBit (c : Option (Fin 2)) (p : Fin 2) : Nat := if c = some p then 1 else 0

/-- The set of cells of player `p`, as a number below 512. -/
def occ (g : Grid) (p : Fin 2) : Nat :=
  cellBit (g.at 0 0) p + 2 * cellBit (g.at 0 1) p + 4 * cellBit (g.at 0 2) p
    + 8 * cellBit (g.at 1 0) p + 16 * cellBit (g.at 1 1) p + 32 * cellBit (g.at 1 2) p
    + 64 * cellBit (g.at 2 0) p + 128 * cellBit (g.at 2 1) p + 256 * cellBit (g.at 2 2) p

/-- Whether the three cells of the triple `t` all lie in the set `k`. -/
def ownsLine (k : Nat) (t : Fin 9 × Fin 9 × Fin 9) : Bool :=
  Nat.beq (bitAt k t.1.val) 1 && Nat.beq (bitAt k t.2.1.val) 1 && Nat.beq (bitAt k t.2.2.val) 1

/-- Position, counted from `j`, of the first triple of `ts` inside the set `k`;
8 when there is none. -/
def firstLineFrom (k : Nat) : List (Fin 9 × Fin 9 × Fin 9) → Nat → Nat
  | [], _ => 8
  | t :: ts, j => if ownsLine k t then j else firstLineFrom k ts (j + 1)

/-- For each set `k` below 512, in the four bits from bit `4 * k`, the position
in `winningTriples` of the first triple inside `k`, or 8. -/
def firstLineTable : Nat :=
  134654191524873152935277758708945531754967353133267424070551241977802985021178173510017750418814373819762926134765364311240428430607147668887506861294732132754462619723876842664240390015803293904766089068829070019116461577574318058883864196957085733538701802398782213071177766748044297485450576543430013558695352710844122341285008270645903281778253509507193312012233468009541006718124691830170192060604195386214191382666514919337124602273616439772554629866725642069606891920585921216598064419189100895578146564378123113850117224152918770092286625309879113261145333786964687199703426749274939650306586318026882713736

/-- Look-up of `firstLineTable`. -/
def firstLine (k : Nat) : Nat := (firstLineTable >>> (4 * k)) &&& 15

/-- The result of `checkForWinner` on the sets `x` of player 0 and `o` of
player 1: 0 for no winner, else the number of the winner plus one. -/
def fastWinner (x o : Nat) : Nat :=
  match Nat.ble (firstLine x) (firstLine o) with
  | true =>
    match Nat.beq (firstLine x) 8 with
    | true => 0
    | false => 1
  | false => 2

/-- Maximum of two numbers. -/
def natMax (a b : Nat) : Nat :=
  match Nat.ble a b with
  | true => b
  | false => a

/-- The loops of `negamax` on the compact form; `mover` is the number of the
player to move and `search` the recursive call. -/
def fastLoop (search : Nat → Nat → Nat → Nat → Nat) (x o mover beta : Nat) :
    List Nat → Nat → Nat → Nat
  | [], best, _ => best
  | i :: is, best, alpha =>
    match bitAt (x + o) i with
    | 0 =>
      force (2000 - (match mover with
          | 0 => search (x + 2 ^ i) o (2000 - beta) (2000 - alpha)
          | _ + 1 => search x (o + 2 ^ i) (2000 - beta) (2000 - alpha))) fun score =>
      force (natMax alpha score) fun alpha' =>
      match Nat.ble beta alpha' with
      | true => natMax best score
      | false => fastLoop search x o mover beta is (natMax best score) alpha'
    | _ + 1 => fastLoop search x o mover beta is best alpha

/-- The cell indices in loop order. -/
def cellIndices : List Nat := [0, 1, 2, 3, 4, 5, 6, 7, 8]

/-- The function `negamax` on the compact form. -/
def fastNegamax : Nat → Nat → Nat → Nat → Nat → Nat → Nat → Nat
  | 0, _, _, _, _, _, _ => 1000
  | fuel + 1, x, o, mover, depth, alpha, beta =>
    force x fun x => force o fun o => force mover fun mover => force depth fun depth =>
    force alpha fun alpha => force beta fun beta =>
    match fastWinner x o with
    | 0 =>
      match Nat.beq (x + o) 511 with
      | true => 1000
      | false =>
        fastLoop (fun x' o' a b => fastNegamax fuel x' o' (1 - mover) (depth + 1) a b)
          x o mover beta cellIndices 0 alpha
    | w + 1 =>
      match Nat.beq w mover with
      | true => 1010 - depth
      | false => 990 + depth

/-- The number standing for the score `v` in the compact form. -/
def enc (v : Int) : Nat := (v + 1000).toNat

/-- The human player, to move on `g`, cannot force a win: at some depth `d` that
fits the grid, the depth-discounted minimax value of `g` for the human player
is at most 0. -/
def Safe (g : Grid) : Prop :=
  ∃ d : Int, 0 ≤ d ∧ d + (countEmpty g : Int) ≤ 9 ∧ minimaxValue 10 g HUMAN_PLAYER d ≤ 0

/-! ## Reading the serialised form -/

/-- The character `stateString` writes for a holder content. -/
def cellChar (c : Option (Fin 2)) : Char :=
  match c with
  | none => '0'
  | some p => if p = 0 then '1' else '2'

/-- The character the loop of `setStateString` reads for the cell with index `i`:
`s[i]` when the loop reaches `i`, that is when `i < (int)s.length()`. -/
def readChar (s : String) (i : Fin 9) : Option Char :=
  if (i.val : Int) < toInt32 s.length then s.data.get? i.val else none

/-- The holder content `setStateString` builds from a character. -/
def charCell (ch : Char) : Option (Fin 2) :=
  if ch = '1' then some 0 else if ch = '2' then some 1 else none

/-- All three cells of the triple `t` hold a piece of player `p`. -/
def LineOwnedBy (g : Grid) (t : Fin 9 × Fin 9 × Fin 9) (p : Fin 2) : Prop :=
  ownerAt g t.1 = some p ∧ ownerAt g t.2.1 = some p ∧ ownerAt g t.2.2 = some p

/-- Whether a line is owned by a player can be computed. -/
instance (g : Grid) (t : Fin 9 × Fin 9 × Fin 9) (p : Fin 2) : Decidable (LineOwnedBy g t p) := by
  unfold LineOwnedBy
  infer_instance

/-! ## Placements, for the turn and winner invariants -/

/-- Number of cells of the grid holding a piece of player `p`. -/
def countOwned (g : Grid) (p : Fin 2) : Nat :=
  rowMajor.countP fun c => decide (g.at c.1 c.2 = some p)

/-- The states met from the empty board, player 0 to move, by any sequence of
successful placements of the current player's piece, each followed by `endTurn`:
a call of `actionForEmptyHolder` that returned true, or a call of `updateAI`
(which commits through `actionForEmptyHolder` and `endTurn` itself). -/
inductive Played : Game → Prop
  | start : Played ⟨emptyGrid, HUMAN_PLAYER⟩
  | place (s : Game) (x y : Fin 3) :
      Played s → (actionForEmptyHolder s x y).1 = true →
      Played (endTurn (actionForEmptyHolder s x y).2)
  | search (fuel : Nat) (s s' : Game) :
      Played s → updateAI fuel s = some s' → Played s'

/-- The states met from the empty board, player 0 to move, when the players
place in turn on empty cells and play stops as soon as `checkForWinner` returns
a player or the board is full (the tests of `EndOfTurn`). -/
inductive LegalPlay : Game → Prop
  | start : LegalPlay ⟨emptyGrid, HUMAN_PLAYER⟩
  | place (s : Game) (x y : Fin 3) :
      LegalPlay s → checkForWinner s.grid = none → checkForDraw s.grid = false →
      (actionForEmptyHolder s x y).1 = true →
      LegalPlay (endTurn (actionForEmptyHolder s x y).2)

/-- The score `updateAI` computes for the empty cell `c` of the grid `g`:
`-negamax(this, HUMAN_PLAYER, 1, -1000, 1000)` on the grid with the speculative
piece of the AI player on `c`; `none` when the call ran out of fuel. -/
def candidateScore (fuel : Nat) (g : Grid) (c : Fin 3 × Fin 3) : Option Int :=
  match negamax fuel (setBit g c.2 c.1 AI_PLAYER) HUMAN_PLAYER 1 (-1000) 1000 with
  | some (r, _) => some (-r)
  | none => none

/-! ## Boards used as examples -/

/-- The state after the human player has opened in the centre. -/
def afterCentre : Game :=
  endTurn (actionForEmptyHolder ⟨emptyGrid, HUMAN_PLAYER⟩ 1 1).2

/-- The AI player owns the cells (0,0) and (0,1); every other cell is empty. -/
def twoInTopRow : Grid := setStateString emptyGrid "220000000"

/-- A full board on which player 0 owns the top row. -/
def fullBoardWithWinner : Grid := setStateString emptyGrid "111221212"

/-- A text of `2^31` characters, each of them '1'. -/
def longText : String := String.mk (List.replicate 2147483648 '1')

/-- A full board without a line of three. -/
def drawnBoard : Grid := setStateString emptyGrid "121122211"

/-- Player 0 owns the top row, player 1 two cells of the middle row; four cells
are empty. -/
def wonBoard : Grid := setStateString emptyGrid "111220000"

/-! ## Basic facts about the grid -/

theorem Arr3.get_set_same {α : Type} (a : Arr3 α) (i : Fin 3) (v : α) :
    (a.set i v).get i = v := by
  fin_cases i <;> simp [Arr3.get, Arr3.set]

theorem Arr3.get_set_ne {α : Type} (a : Arr3 α) (i j : Fin 3) (v : α) (h : j ≠ i) :
    (a.set i v).get j = a.get j := by
  fin_cases i <;> fin_cases j <;> simp [Arr3.get, Arr3.set] at h ⊢

theorem Arr3.ext_get {α : Type} {a b : Arr3 α} (h : ∀ i, a.get i = b.get i) : a = b := by
  have h0 := h 0
  have h1 := h 1
  have h2 := h 2
  cases a
  cases b
  simp [Arr3.get] at h0 h1 h2
  simp [h0, h1, h2]

theorem Grid.ext_at {g g' : Grid} (h : ∀ y x, g.at y x = g'.at y x) : g = g' :=
  Arr3.ext_get fun y => Arr3.ext_get fun x => h y x

theorem at_setBit (g : Grid) (x y x' y' : Fin 3) (owner : Fin 2) :
    (setBit g x y owner).at y' x' = if y' = y ∧ x' = x then some owner else g.at y' x' := by
  unfold setBit Grid.at
  by_cases hy : y' = y
  · subst hy
    rw [Arr3.get_set_same]
    by_cases hx : x' = x
    · subst hx
      simp [Arr3.get_set_same]
    · simp [Arr3.get_set_ne _ _ _ _ hx, hx]
  · simp [Arr3.get_set_ne _ _ _ _ hy, hy]

theorem at_destroyBit (g : Grid) (x y x' y' : Fin 3) :
    (destroyBit g x y).at y' x' = if y' = y ∧ x' = x then none else g.at y' x' := by
  unfold destroyBit Grid.at
  by_cases hy : y' = y
  · subst hy
    rw [Arr3.get_set_same]
    by_cases hx : x' = x
    · subst hx
      simp [Arr3.get_set_same]
    · simp [Arr3.get_set_ne _ _ _ _ hx, hx]
  · simp [Arr3.get_set_ne _ _ _ _ hy, hy]

/-- Removing a speculative piece from a cell that was empty gives the grid back. -/
theorem destroyBit_setBit (g : Grid) (x y : Fin 3) (owner : Fin 2) (h : g.at y x = none) :
    destroyBit (setBit g x y owner) x y = g := by
  apply Grid.ext_at
  intro y' x'
  rw [at_destroyBit, at_setBit]
  by_cases hc : y' = y ∧ x' = x
  · simp [hc, h]
  · simp [hc]

theorem countEmpty_setBit (g : Grid) (x y : Fin 3) (owner : Fin 2) (h : g.at y x = none) :
    countEmpty (setBit g x y owner) + 1 = countEmpty g := by
  obtain ⟨⟨a0, a1, a2⟩, ⟨b0, b1, b2⟩, ⟨c0, c1, c2⟩⟩ := g
  fin_cases x <;> fin_cases y <;>
    simp [Grid.at, Arr3.get] at h <;>
    subst h <;>
    simp [countEmpty, rowMajor, setBit, Grid.at, Arr3.get, Arr3.set, List.countP_cons] <;>
    omega

/-! ## The search hands the grid back -/

/-- The loops of `negamax` hand back the grid they were given, whenever every
recursive call does. -/
theorem negamaxLoop_grid (search : Grid → Int → Int → Option (Int × Grid)) (p : Fin 2)
    (beta : Int)
    (hs : ∀ g a b r g', search g a b = some (r, g') → g' = g) :
    ∀ (cells : List (Fin 3 × Fin 3)) (g : Grid) (best alpha r : Int) (g' : Grid),
      negamaxLoop search p beta cells g best alpha = some (r, g') → g' = g := by
  intro cells
  induction cells with
  | nil =>
    intro g best alpha r g' h
    simp [negamaxLoop] at h
    exact h.2.symm
  | cons c rest ih =>
    intro g best alpha r g' h
    unfold negamaxLoop at h
    cases hc : g.at c.1 c.2 with
    | some o =>
      simp only [hc] at h
      exact ih g best alpha r g' h
    | none =>
      simp only [hc] at h
      cases hr : search (setBit g c.2 c.1 p) (-beta) (-alpha) with
      | none => simp [hr] at h
      | some res =>
        obtain ⟨r1, g1⟩ := res
        have hg1 : g1 = setBit g c.2 c.1 p := hs _ _ _ _ _ hr
        have hg2 : destroyBit g1 c.2 c.1 = g := by
          rw [hg1]
          exact destroyBit_setBit g c.2 c.1 p hc
        simp only [hr, hg2] at h
        split at h
        · simp at h
          exact h.2.symm
        · exact ih g _ _ r g' h

/-- Whenever `negamax` returns, the grid it hands back is the grid it was given. -/
theorem negamax_grid :
    ∀ (fuel : Nat) (g : Grid) (p : Fin 2) (depth alpha beta r : Int) (g' : Grid),
      negamax fuel g p depth alpha beta = some (r, g') → g' = g := by
  intro fuel
  induction fuel with
  | zero =>
    intro g p depth alpha beta r g' h
    simp [negamax] at h
  | succ fuel ih =>
    intro g p depth alpha beta r g' h
    unfold negamax at h
    cases hw : checkForWinner g with
    | some w =>
      simp only [hw] at h
      split at h <;> simp at h <;> exact h.2.symm
    | none =>
      simp only [hw] at h
      split at h
      · simp at h
        exact h.2.symm
      · exact negamaxLoop_grid _ p beta (fun g1 a b r1 g1' h1 => ih g1 _ _ a b r1 g1' h1)
          rowMajor g _ _ r g' h

/-- The loops of `negamax` return when every recursive call on a grid with one
more piece does. -/
theorem negamaxLoop_returns (search : Grid → Int → Int → Option (Int × Grid)) (p : Fin 2)
    (beta : Int) (g : Grid)
    (hs : ∀ x y a b, g.at y x = none →
      ∃ r, search (setBit g x y p) a b = some (r, setBit g x y p)) :
    ∀ (cells : List (Fin 3 × Fin 3)) (best alpha : Int),
      ∃ r, negamaxLoop search p beta cells g best alpha = some (r, g) := by
  intro cells
  induction cells with
  | nil =>
    intro best alpha
    exact ⟨best, by simp [negamaxLoop]⟩
  | cons c rest ih =>
    intro best alpha
    unfold negamaxLoop
    cases hc : g.at c.1 c.2 with
    | some o => exact ih best alpha
    | none =>
      obtain ⟨r1, hr1⟩ := hs c.2 c.1 (-beta) (-alpha) hc
      simp only [hr1, destroyBit_setBit g c.2 c.1 p hc]
      split
      · exact ⟨_, rfl⟩
      · exact ih _ _

/-- With more fuel than empty cells, `negamax` returns, and hands back the grid
it was given. -/
theorem negamax_returns :
    ∀ (fuel : Nat) (g : Grid) (p : Fin 2) (depth alpha beta : Int),
      countEmpty g < fuel → ∃ r, negamax fuel g p depth alpha beta = some (r, g) := by
  intro fuel
  induction fuel with
  | zero =>
    intro g p depth alpha beta h
    omega
  | succ fuel ih =>
    intro g p depth alpha beta h
    unfold negamax
    cases hw : checkForWinner g with
    | some w =>
      by_cases hwp : w = p
      · exact ⟨10 - depth, by simp [hwp]⟩
      · exact ⟨-10 + depth, by simp [hwp]⟩
    | none =>
      by_cases hd : checkForDraw g = true
      · exact ⟨0, by simp [hd]⟩
      · simp only [hd]
        apply negamaxLoop_returns
        intro x y a b hxy
        apply ih
        have := countEmpty_setBit g x y p hxy
        omega

/-! ## The score as a function of the grid -/

theorem negamaxLoop_eq_scoreLoop (search : Grid → Int → Int → Option (Int × Grid))
    (score : Grid → Int → Int → Int) (p : Fin 2) (beta : Int) (g : Grid)
    (hs : ∀ x y a b, g.at y x = none →
      search (setBit g x y p) a b = some (score (setBit g x y p) a b, setBit g x y p)) :
    ∀ (cells : List (Fin 3 × Fin 3)) (best alpha : Int),
      negamaxLoop search p beta cells g best alpha
        = some (scoreLoop score p beta g cells best alpha, g) := by
  intro cells
  induction cells with
  | nil =>
    intro best alpha
    simp [negamaxLoop, scoreLoop]
  | cons c rest ih =>
    intro best alpha
    unfold negamaxLoop scoreLoop
    cases hc : g.at c.1 c.2 with
    | some o => exact ih best alpha
    | none =>
      simp only [hs c.2 c.1 (-beta) (-alpha) hc, destroyBit_setBit g c.2 c.1 p hc]
      split
      · rfl
      · exact ih _ _

/-- With more fuel than empty cells, `negamax` returns the score `negamaxScore`
and the grid it was given. -/
theorem negamax_eq_score :
    ∀ (fuel : Nat) (g : Grid) (p : Fin 2) (depth alpha beta : Int),
      countEmpty g < fuel →
      negamax fuel g p depth alpha beta = some (negamaxScore fuel g p depth alpha beta, g) := by
  intro fuel
  induction fuel with
  | zero =>
    intro g p depth alpha beta h
    omega
  | succ fuel ih =>
    intro g p depth alpha beta h
    unfold negamax negamaxScore
    cases hw : checkForWinner g with
    | some w =>
      by_cases hwp : w = p <;> simp [hwp]
    | none =>
      by_cases hd : checkForDraw g = true
      · simp [hd]
      · simp only [hd]
        apply negamaxLoop_eq_scoreLoop
        intro x y a b hxy
        apply ih
        have := countEmpty_setBit g x y p hxy
        omega

/-! ## Range of the scores -/

theorem exists_empty_of_not_draw (g : Grid) (h : checkForDraw g = false) :
    ∃ c ∈ rowMajor, g.at c.1 c.2 = none := by
  unfold checkForDraw at h
  rw [List.all_eq_false] at h
  obtain ⟨c, hc, hn⟩ := h
  refine ⟨c, hc, ?_⟩
  cases hv : g.at c.1 c.2 with
  | none => rfl
  | some o => simp [hv] at hn

/-- When every candidate score lies in `[-B, B]`, so does the result of the
loops, as soon as one empty cell is visited or the running best is in range. -/
theorem scoreLoop_bound (search : Grid → Int → Int → Int) (p : Fin 2) (beta : Int) (g : Grid)
    (B : Int)
    (hs : ∀ x y a b, g.at y x = none →
      -B ≤ search (setBit g x y p) a b ∧ search (setBit g x y p) a b ≤ B) :
    ∀ (cells : List (Fin 3 × Fin 3)) (best alpha : Int),
      ((-B ≤ best ∧ best ≤ B) ∨ (best = -1000 ∧ ∃ c ∈ cells, g.at c.1 c.2 = none)) →
      -B ≤ scoreLoop search p beta g cells best alpha ∧
        scoreLoop search p beta g cells best alpha ≤ B := by
  intro cells
  induction cells with
  | nil =>
    intro best alpha h
    rcases h with h | ⟨_, c, hc, _⟩
    · simpa [scoreLoop] using h
    · simp at hc
  | cons c rest ih =>
    intro best alpha h
    unfold scoreLoop
    cases hc : g.at c.1 c.2 with
    | some o =>
      simp only
      apply ih
      rcases h with h | ⟨hb, c', hc', he⟩
      · exact Or.inl h
      · right
        refine ⟨hb, c', ?_, he⟩
        rcases List.mem_cons.1 hc' with h1 | h1
        · subst h1
          rw [hc] at he
          cases he
        · exact h1
    | none =>
      simp only
      have hsc := hs c.2 c.1 (-beta) (-alpha) hc
      have hbest : -B ≤ max best (-search (setBit g c.2 c.1 p) (-beta) (-alpha)) ∧
          max best (-search (setBit g c.2 c.1 p) (-beta) (-alpha)) ≤ B := by
        rcases h with h | ⟨hb, _⟩
        · constructor
          · exact le_trans h.1 (le_max_left _ _)
          · exact max_le h.2 (by omega)
        · constructor
          · exact le_trans (by omega) (le_max_right _ _)
          · exact max_le (by omega) (by omega)
      split
      · exact hbest
      · exact ih _ _ (Or.inl hbest)

/-- At depth `depth ≥ 0`, on a grid with at most `10 - depth` empty cells, the
score of `negamax` lies between `-(10 - depth)` and `10 - depth`. -/
theorem negamaxScore_bound :
    ∀ (fuel : Nat) (g : Grid) (p : Fin 2) (depth alpha beta : Int),
      0 ≤ depth → depth + (countEmpty g : Int) ≤ 10 →
      -(10 - depth) ≤ negamaxScore fuel g p depth alpha beta ∧
        negamaxScore fuel g p depth alpha beta ≤ 10 - depth := by
  intro fuel
  induction fuel with
  | zero =>
    intro g p depth alpha beta h0 h1
    simp only [negamaxScore]
    omega
  | succ fuel ih =>
    intro g p depth alpha beta h0 h1
    unfold negamaxScore
    cases hw : checkForWinner g with
    | some w =>
      by_cases hwp : w = p <;> simp only [hwp, if_true, if_false] <;> omega
    | none =>
      by_cases hd : checkForDraw g = true
      · simp only [hd, if_true]
        omega
      · simp only [hd, Bool.false_eq_true, if_false]
        have hb := scoreLoop_bound
          (fun g' a b => negamaxScore fuel g' (1 - p) (depth + 1) a b) p beta g
          (10 - (depth + 1))
          (by
            intro x y a b hxy
            have hc := countEmpty_setBit g x y p hxy
            exact ih (setBit g x y p) (1 - p) (depth + 1) a b (by omega) (by omega))
          rowMajor (-1000) alpha
          (Or.inr ⟨rfl, exists_empty_of_not_draw g (by simpa using hd)⟩)
        omega

/-- On a grid without a winner the score is one step tighter:
between `-(9 - depth)` and `9 - depth`, for `0 ≤ depth ≤ 9`. -/
theorem negamaxScore_bound_of_no_winner (fuel : Nat) (g : Grid) (p : Fin 2)
    (depth alpha beta : Int) (h0 : 0 ≤ depth) (h9 : depth ≤ 9)
    (h1 : depth + (countEmpty g : Int) ≤ 10) (hw : checkForWinner g = none) :
    -(9 - depth) ≤ negamaxScore fuel g p depth alpha beta ∧
      negamaxScore fuel g p depth alpha beta ≤ 9 - depth := by
  cases fuel with
  | zero =>
    simp only [negamaxScore]
    omega
  | succ fuel =>
    unfold negamaxScore
    simp only [hw]
    by_cases hd : checkForDraw g = true
    · simp only [hd, if_true]
      omega
    · rw [if_neg hd]
      apply scoreLoop_bound _ p beta g (9 - depth) _ rowMajor (-1000) alpha
        (Or.inr ⟨rfl, exists_empty_of_not_draw g (by simpa using hd)⟩)
      intro x y a b hxy
      have hc := countEmpty_setBit g x y p hxy
      have := negamaxScore_bound fuel (setBit g x y p) (1 - p) (depth + 1) a b
        (by omega) (by omega)
      show -(9 - depth) ≤ negamaxScore fuel (setBit g x y p) (1 - p) (depth + 1) a b ∧
        negamaxScore fuel (setBit g x y p) (1 - p) (depth + 1) a b ≤ 9 - depth
      omega

/-! ## The selection of `updateAI` as a function of the grid -/

theorem countEmpty_le (g : Grid) : countEmpty g ≤ 9 := by
  unfold countEmpty
  exact le_trans (List.countP_le_length _) (by simp [rowMajor])

theorem selectLoop_append (score : Grid → Int) (g : Grid) :
    ∀ (l1 l2 : List (Fin 3 × Fin 3)) (b : Int) (c : Option (Fin 3 × Fin 3)),
      selectLoop score g (l1 ++ l2) b c
        = selectLoop score g l2 (selectLoop score g l1 b c).1 (selectLoop score g l1 b c).2 := by
  intro l1
  induction l1 with
  | nil => intro l2 b c; rfl
  | cons a l1 ih =>
    intro l2 b c
    simp only [List.cons_append, selectLoop]
    cases g.at a.1 a.2 with
    | some o => exact ih l2 b c
    | none =>
      simp only
      split
      · exact ih l2 _ _
      · exact ih l2 b c

theorem selectLoop_lt (score : Grid → Int) (g : Grid) (M : Int)
    (hlt : ∀ x y, g.at y x = none → -score (setBit g x y AI_PLAYER) < M) :
    ∀ (cells : List (Fin 3 × Fin 3)) (b : Int) (c : Option (Fin 3 × Fin 3)),
      b < M → (selectLoop score g cells b c).1 < M := by
  intro cells
  induction cells with
  | nil => intro b c hb; exact hb
  | cons a cells ih =>
    intro b c hb
    unfold selectLoop
    cases ha : g.at a.1 a.2 with
    | some o => exact ih b c hb
    | none =>
      simp only
      split
      · exact ih _ _ (hlt a.2 a.1 ha)
      · exact ih b c hb

/-- The best cell kept by the selection is an empty cell of the grid. -/
theorem selectLoop_empty (score : Grid → Int) (g : Grid) :
    ∀ (cells : List (Fin 3 × Fin 3)) (b : Int) (c : Option (Fin 3 × Fin 3)),
      (∀ c0, c = some c0 → g.at c0.1 c0.2 = none) →
      ∀ c1, (selectLoop score g cells b c).2 = some c1 → g.at c1.1 c1.2 = none := by
  intro cells
  induction cells with
  | nil => intro b c hc c1 h; exact hc c1 h
  | cons a cells ih =>
    intro b c hc c1 h
    unfold selectLoop at h
    cases ha : g.at a.1 a.2 with
    | some o =>
      simp only [ha] at h
      exact ih b c hc c1 h
    | none =>
      simp only [ha] at h
      split at h
      · exact ih _ _ (by intro c0 h0; cases h0; exact ha) c1 h
      · exact ih b c hc c1 h

theorem updateAIRow_eq (search : Grid → Option (Int × Grid)) (score : Grid → Int) (g : Grid)
    (y : Fin 3)
    (hs : ∀ x y, g.at y x = none →
      search (setBit g x y AI_PLAYER)
        = some (score (setBit g x y AI_PLAYER), setBit g x y AI_PLAYER))
    (hlt : ∀ x y, g.at y x = none → -score (setBit g x y AI_PLAYER) < 10) :
    ∀ (xs : List (Fin 3)) (b : Int) (c : Option (Fin 3 × Fin 3)),
      updateAIRow search y xs ⟨g, b, c⟩
        = some ⟨g, (selectLoop score g (xs.map fun x => (y, x)) b c).1,
            (selectLoop score g (xs.map fun x => (y, x)) b c).2⟩ := by
  intro xs
  induction xs with
  | nil => intro b c; rfl
  | cons x xs ih =>
    intro b c
    simp only [List.map_cons]
    unfold updateAIRow selectLoop
    cases hx : g.at y x with
    | some o => exact ih b c
    | none =>
      simp only [hs x y hx, destroyBit_setBit g x y AI_PLAYER hx]
      have h10 := hlt x y hx
      split
      · rw [if_neg (by omega)]
        exact ih _ _
      · exact ih b c

theorem updateAIRows_eq (search : Grid → Option (Int × Grid)) (score : Grid → Int) (g : Grid)
    (hs : ∀ x y, g.at y x = none →
      search (setBit g x y AI_PLAYER)
        = some (score (setBit g x y AI_PLAYER), setBit g x y AI_PLAYER))
    (hlt : ∀ x y, g.at y x = none → -score (setBit g x y AI_PLAYER) < 10) :
    ∀ (ys : List (Fin 3)) (b : Int) (c : Option (Fin 3 × Fin 3)), b < 10 →
      updateAIRows search ys ⟨g, b, c⟩
        = some ⟨g,
            (selectLoop score g (ys.flatMap fun y => [0, 1, 2].map fun x => (y, x)) b c).1,
            (selectLoop score g (ys.flatMap fun y => [0, 1, 2].map fun x => (y, x)) b c).2⟩ := by
  intro ys
  induction ys with
  | nil => intro b c _; rfl
  | cons y ys ih =>
    intro b c hb
    unfold updateAIRows
    rw [updateAIRow_eq search score g y hs hlt]
    have hlt1 := selectLoop_lt score g 10 hlt ([0, 1, 2].map fun x => (y, x)) b c hb
    simp only
    rw [if_neg (by omega), List.flatMap_cons, selectLoop_append]
    exact ih _ _ hlt1

/-- On the AI player's turn the selection loops of `updateAI`, run with a scoring
call that returns the score `score` below 10 and hands the grid back, play the
cell selected over these scores and pass the turn, or leave the game as it is
when no cell is selected. -/
theorem updateAIWith_eq (search : Grid → Option (Int × Grid)) (score : Grid → Int) (s : Game)
    (hs : ∀ x y, s.grid.at y x = none →
      search (setBit s.grid x y AI_PLAYER)
        = some (score (setBit s.grid x y AI_PLAYER), setBit s.grid x y AI_PLAYER))
    (hlt : ∀ x y, s.grid.at y x = none → -score (setBit s.grid x y AI_PLAYER) < 10)
    (hturn : s.currentPlayer = AI_PLAYER) :
    updateAIWith search s = some (commitBest s (selectLoop score s.grid rowMajor (-1000) none).2) := by
  obtain ⟨g, cur⟩ := s
  simp only at hs hlt hturn
  subst hturn
  have hrows := updateAIRows_eq search score g hs hlt [0, 1, 2] (-1000) none (by omega)
  have hrm : ([0, 1, 2].flatMap fun y => [0, 1, 2].map fun x => (y, x)) = rowMajor := rfl
  rw [hrm] at hrows
  unfold updateAIWith
  simp only [ne_eq, not_true_eq_false, if_false, hrows]
  cases hb : (selectLoop score g rowMajor (-1000) none).2 with
  | none => rfl
  | some c =>
    have hempty := selectLoop_empty _ g rowMajor (-1000) none (by intro c0 h0; cases h0) c hb
    simp [actionForEmptyHolder, hempty, commitBest]

/-- On the AI player's turn, with at least as much fuel as empty cells,
`updateAI` returns: it plays the cell selected over the scores `negamaxScore`
and passes the turn, or leaves the game as it is when no cell is selected. -/
theorem updateAI_eq (fuel : Nat) (s : Game) (hf : countEmpty s.grid ≤ fuel)
    (hturn : s.currentPlayer = AI_PLAYER) :
    updateAI fuel s = some (commitBest s
      (selectLoop (fun g => negamaxScore fuel g HUMAN_PLAYER 1 (-1000) 1000)
        s.grid rowMajor (-1000) none).2) := by
  apply updateAIWith_eq _ _ s _ _ hturn
  · intro x y hxy
    have := countEmpty_setBit s.grid x y AI_PLAYER hxy
    exact negamax_eq_score fuel _ _ _ _ _ (by omega)
  · intro x y hxy
    have h1 := countEmpty_setBit s.grid x y AI_PLAYER hxy
    have h2 := countEmpty_le s.grid
    have := negamaxScore_bound fuel (setBit s.grid x y AI_PLAYER) HUMAN_PLAYER 1 (-1000) 1000
      (by omega) (by omega)
    show -negamaxScore fuel (setBit s.grid x y AI_PLAYER) HUMAN_PLAYER 1 (-1000) 1000 < 10
    omega

/-- When it is not the AI player's turn `updateAI` returns at once. -/
theorem updateAIWith_not_turn (search : Grid → Option (Int × Grid)) (s : Game)
    (hturn : s.currentPlayer ≠ AI_PLAYER) : updateAIWith search s = some s := by
  unfold updateAIWith
  rw [if_pos hturn]

/-! ## Pruning does not change the score -/

theorem negamaxUnprunedLoop_eq_valueLoop (search : Grid → Int → Int → Option (Int × Grid))
    (value : Grid → Int) (p : Fin 2) (beta : Int) (g : Grid)
    (hs : ∀ x y a b, g.at y x = none →
      search (setBit g x y p) a b = some (value (setBit g x y p), setBit g x y p)) :
    ∀ (cells : List (Fin 3 × Fin 3)) (best alpha : Int),
      negamaxUnprunedLoop search p beta cells g best alpha
        = some (valueLoop value p g cells best, g) := by
  intro cells
  induction cells with
  | nil =>
    intro best alpha
    simp [negamaxUnprunedLoop, valueLoop]
  | cons c rest ih =>
    intro best alpha
    unfold negamaxUnprunedLoop valueLoop
    cases hc : g.at c.1 c.2 with
    | some o => exact ih best alpha
    | none =>
      simp only [hs c.2 c.1 (-beta) (-alpha) hc, destroyBit_setBit g c.2 c.1 p hc]
      exact ih _ _

/-- With more fuel than empty cells, the unpruned search returns the value
`minimaxValue`, whatever the window, and the grid it was given. -/
theorem negamaxUnpruned_eq_value :
    ∀ (fuel : Nat) (g : Grid) (p : Fin 2) (depth alpha beta : Int),
      countEmpty g < fuel →
      negamaxUnpruned fuel g p depth alpha beta = some (minimaxValue fuel g p depth, g) := by
  intro fuel
  induction fuel with
  | zero =>
    intro g p depth alpha beta h
    omega
  | succ fuel ih =>
    intro g p depth alpha beta h
    unfold negamaxUnpruned minimaxValue
    cases hw : checkForWinner g with
    | some w =>
      by_cases hwp : w = p <;> simp [hwp]
    | none =>
      by_cases hd : checkForDraw g = true
      · simp [hd]
      · simp only [hd]
        apply negamaxUnprunedLoop_eq_valueLoop
        intro x y a b hxy
        apply ih
        have := countEmpty_setBit g x y p hxy
        omega

theorem le_valueLoop (value : Grid → Int) (p : Fin 2) (g : Grid) :
    ∀ (cells : List (Fin 3 × Fin 3)) (best : Int), best ≤ valueLoop value p g cells best := by
  intro cells
  induction cells with
  | nil => intro best; exact le_refl _
  | cons c rest ih =>
    intro best
    unfold valueLoop
    cases g.at c.1 c.2 with
    | some o => exact ih best
    | none => exact le_trans (le_max_left _ _) (ih _)

/-- The loops of the pruned search against the loops of the unpruned one.
`alpha0` is the value of `alpha` on entry of the node; `best`, `alpha` and `vbest`
are the running values after some iterations. -/
theorem scoreLoop_sound (search : Grid → Int → Int → Int) (value : Grid → Int) (p : Fin 2)
    (alpha0 beta : Int) (g : Grid) (hlo : -1000 ≤ alpha0) (hhi : beta ≤ 1000)
    (hs : ∀ x y a b, g.at y x = none → -1000 ≤ a → a < b → b ≤ 1000 →
      (search (setBit g x y p) a b ≤ a → value (setBit g x y p) ≤ search (setBit g x y p) a b) ∧
      (b ≤ search (setBit g x y p) a b → search (setBit g x y p) a b ≤ value (setBit g x y p)) ∧
      (a < search (setBit g x y p) a b → search (setBit g x y p) a b < b →
        search (setBit g x y p) a b = value (setBit g x y p))) :
    ∀ (cells : List (Fin 3 × Fin 3)) (best alpha vbest : Int),
      alpha = max alpha0 best → alpha < beta → vbest ≤ best → (alpha0 < best → best = vbest) →
      (scoreLoop search p beta g cells best alpha ≤ alpha0 →
        valueLoop value p g cells vbest ≤ scoreLoop search p beta g cells best alpha) ∧
      (beta ≤ scoreLoop search p beta g cells best alpha →
        scoreLoop search p beta g cells best alpha ≤ valueLoop value p g cells vbest) ∧
      (alpha0 < scoreLoop search p beta g cells best alpha →
        scoreLoop search p beta g cells best alpha < beta →
        scoreLoop search p beta g cells best alpha = valueLoop value p g cells vbest) := by
  intro cells
  induction cells with
  | nil =>
    intro best alpha vbest ha hab hv he
    simp only [scoreLoop, valueLoop]
    refine ⟨fun _ => hv, fun h => ?_, fun h _ => he h⟩
    omega
  | cons c rest ih =>
    intro best alpha vbest ha hab hv he
    unfold scoreLoop valueLoop
    cases hc : g.at c.1 c.2 with
    | some o => exact ih best alpha vbest ha hab hv he
    | none =>
      simp only
      obtain ⟨h1, h2, h3⟩ := hs c.2 c.1 (-beta) (-alpha) hc (by omega) (by omega) (by omega)
      generalize search (setBit g c.2 c.1 p) (-beta) (-alpha) = rc at h1 h2 h3 ⊢
      generalize value (setBit g c.2 c.1 p) = vc at h1 h2 h3 ⊢
      by_cases hcut : max alpha (-rc) ≥ beta
      · rw [if_pos hcut]
        have hge := le_valueLoop value p g rest (max vbest (-vc))
        have h1' := h1 (by omega)
        refine ⟨fun h => ?_, fun _ => ?_, fun h h' => ?_⟩ <;> omega
      · rw [if_neg hcut]
        apply ih
        · omega
        · omega
        · by_cases hb : -alpha ≤ rc
          · have := h2 hb
            omega
          · have := h3 (by omega) (by omega)
            omega
        · intro hlt
          by_cases hb : -alpha ≤ rc
          · have := h2 hb
            have := he
            omega
          · have := h3 (by omega) (by omega)
            omega

/-- Soundness of the pruning: for a window `-1000 ≤ alpha < beta ≤ 1000`, a score
at or below `alpha` is an upper bound of the minimax value, a score at or above
`beta` a lower bound, and a score strictly inside the window is the value. -/
theorem negamaxScore_sound :
    ∀ (fuel : Nat) (g : Grid) (p : Fin 2) (depth alpha beta : Int),
      -1000 ≤ alpha → alpha < beta → beta ≤ 1000 →
      (negamaxScore fuel g p depth alpha beta ≤ alpha →
        minimaxValue fuel g p depth ≤ negamaxScore fuel g p depth alpha beta) ∧
      (beta ≤ negamaxScore fuel g p depth alpha beta →
        negamaxScore fuel g p depth alpha beta ≤ minimaxValue fuel g p depth) ∧
      (alpha < negamaxScore fuel g p depth alpha beta →
        negamaxScore fuel g p depth alpha beta < beta →
        negamaxScore fuel g p depth alpha beta = minimaxValue fuel g p depth) := by
  intro fuel
  induction fuel with
  | zero =>
    intro g p depth alpha beta _ _ _
    simp [negamaxScore, minimaxValue]
  | succ fuel ih =>
    intro g p depth alpha beta ha hab hb
    unfold negamaxScore minimaxValue
    cases hw : checkForWinner g with
    | some w => simp
    | none =>
      by_cases hd : checkForDraw g = true
      · simp [hd]
      · simp only [hd, Bool.false_eq_true, if_false]
        apply scoreLoop_sound _ _ p alpha beta g ha hb _ rowMajor (-1000) alpha (-1000)
          (by omega) hab (le_refl _) (by intro h; omega)
        intro x y a b _ h1 h2 h3
        exact ih (setBit g x y p) (1 - p) (depth + 1) a b h1 h2 h3

/-! ## The compact form against the grid -/

theorem force_eq {α : Type} (n : Nat) (k : Nat → α) : force n k = k n := by
  cases n <;> rfl

theorem bitAt_eq (n i : Nat) : bitAt n i = n / 2 ^ i % 2 := by
  simp [bitAt, Nat.shiftRight_eq_div_pow, Nat.and_one_is_mod]

theorem natMax_eq (a b : Nat) : natMax a b = max a b := by
  unfold natMax
  cases h : Nat.ble a b
  · have := Nat.not_le_of_not_ble_eq_true (by simp [h] : ¬ Nat.ble a b = true)
    simp only
    omega
  · have := Nat.le_of_ble_eq_true h
    simp only
    omega

theorem cellBit_le (c : Option (Fin 2)) (p : Fin 2) : cellBit c p ≤ 1 := by
  unfold cellBit
  split <;> omega

theorem cellBit_add (c : Option (Fin 2)) :
    cellBit c 0 + cellBit c 1 = if c = none then 0 else 1 := by
  revert c
  decide

/-- The digits of a number written with nine binary digits. -/
theorem nine_bits (e0 e1 e2 e3 e4 e5 e6 e7 e8 : Nat)
    (h0 : e0 ≤ 1) (h1 : e1 ≤ 1) (h2 : e2 ≤ 1) (h3 : e3 ≤ 1) (h4 : e4 ≤ 1) (h5 : e5 ≤ 1)
    (h6 : e6 ≤ 1) (h7 : e7 ≤ 1) (h8 : e8 ≤ 1) (n : Nat)
    (hn : n = e0 + 2 * e1 + 4 * e2 + 8 * e3 + 16 * e4 + 32 * e5 + 64 * e6 + 128 * e7 + 256 * e8) :
    n < 512 ∧ n / 1 % 2 = e0 ∧ n / 2 % 2 = e1 ∧ n / 4 % 2 = e2 ∧ n / 8 % 2 = e3 ∧
      n / 16 % 2 = e4 ∧ n / 32 % 2 = e5 ∧ n / 64 % 2 = e6 ∧ n / 128 % 2 = e7 ∧
      n / 256 % 2 = e8 := by
  have d1 : n / 2 = e1 + 2 * e2 + 4 * e3 + 8 * e4 + 16 * e5 + 32 * e6 + 64 * e7 + 128 * e8 := by
    omega
  have d2 : n / 4 = e2 + 2 * e3 + 4 * e4 + 8 * e5 + 16 * e6 + 32 * e7 + 64 * e8 := by omega
  have d3 : n / 8 = e3 + 2 * e4 + 4 * e5 + 8 * e6 + 16 * e7 + 32 * e8 := by omega
  have d4 : n / 16 = e4 + 2 * e5 + 4 * e6 + 8 * e7 + 16 * e8 := by omega
  have d5 : n / 32 = e5 + 2 * e6 + 4 * e7 + 8 * e8 := by omega
  have d6 : n / 64 = e6 + 2 * e7 + 4 * e8 := by omega
  have d7 : n / 128 = e7 + 2 * e8 := by omega
  have d8 : n / 256 = e8 := by omega
  refine ⟨by omega, by omega, ?_, ?_, ?_, ?_, ?_, ?_, ?_, ?_⟩
  · rw [d1]; omega
  · rw [d2]; omega
  · rw [d3]; omega
  · rw [d4]; omega
  · rw [d5]; omega
  · rw [d6]; omega
  · rw [d7]; omega
  · rw [d8]; omega

theorem occ_bits (g : Grid) (p : Fin 2) :
    occ g p < 512 ∧ occ g p / 1 % 2 = cellBit (g.at 0 0) p ∧
      occ g p / 2 % 2 = cellBit (g.at 0 1) p ∧ occ g p / 4 % 2 = cellBit (g.at 0 2) p ∧
      occ g p / 8 % 2 = cellBit (g.at 1 0) p ∧ occ g p / 16 % 2 = cellBit (g.at 1 1) p ∧
      occ g p / 32 % 2 = cellBit (g.at 1 2) p ∧ occ g p / 64 % 2 = cellBit (g.at 2 0) p ∧
      occ g p / 128 % 2 = cellBit (g.at 2 1) p ∧ occ g p / 256 % 2 = cellBit (g.at 2 2) p :=
  nine_bits _ _ _ _ _ _ _ _ _ (cellBit_le _ p) (cellBit_le _ p) (cellBit_le _ p)
    (cellBit_le _ p) (cellBit_le _ p) (cellBit_le _ p) (cellBit_le _ p) (cellBit_le _ p)
    (cellBit_le _ p) (occ g p) rfl

theorem occ_lt (g : Grid) (p : Fin 2) : occ g p < 512 := (occ_bits g p).1

/-- Bit `3 * y + x` of the set of player `p` tells whether the cell `(y, x)` is
a piece of `p`. -/
theorem bitAt_occ (g : Grid) (p : Fin 2) (y x : Fin 3) :
    bitAt (occ g p) (cellIndex (y, x)) = cellBit (g.at y x) p := by
  have h := occ_bits g p
  rw [bitAt_eq]
  fin_cases y <;> fin_cases x <;> simp [cellIndex] <;> omega

theorem bitAt_occ_ownerAt (g : Grid) (p : Fin 2) (i : Fin 9) :
    bitAt (occ g p) i.val = cellBit (ownerAt g i) p := by
  have h := bitAt_occ g p ⟨i.val / 3, by omega⟩ ⟨i.val % 3, by omega⟩
  have hi : cellIndex (⟨i.val / 3, by omega⟩, ⟨i.val % 3, by omega⟩) = i.val := by
    simp only [cellIndex]
    omega
  rw [hi] at h
  exact h

theorem occ_add_bits (g : Grid) :
    occ g 0 + occ g 1 < 512 ∧
      (occ g 0 + occ g 1) / 1 % 2 = (if g.at 0 0 = none then 0 else 1) ∧
      (occ g 0 + occ g 1) / 2 % 2 = (if g.at 0 1 = none then 0 else 1) ∧
      (occ g 0 + occ g 1) / 4 % 2 = (if g.at 0 2 = none then 0 else 1) ∧
      (occ g 0 + occ g 1) / 8 % 2 = (if g.at 1 0 = none then 0 else 1) ∧
      (occ g 0 + occ g 1) / 16 % 2 = (if g.at 1 1 = none then 0 else 1) ∧
      (occ g 0 + occ g 1) / 32 % 2 = (if g.at 1 2 = none then 0 else 1) ∧
      (occ g 0 + occ g 1) / 64 % 2 = (if g.at 2 0 = none then 0 else 1) ∧
      (occ g 0 + occ g 1) / 128 % 2 = (if g.at 2 1 = none then 0 else 1) ∧
      (occ g 0 + occ g 1) / 256 % 2 = (if g.at 2 2 = none then 0 else 1) := by
  have e : ∀ c : Option (Fin 2), (if c = none then 0 else 1) ≤ 1 := by
    intro c
    split <;> omega
  refine nine_bits _ _ _ _ _ _ _ _ _ (e _) (e _) (e _) (e _) (e _) (e _) (e _) (e _) (e _) _ ?_
  simp only [← cellBit_add, occ]
  omega

/-- Bit `3 * y + x` of the union of the two sets tells whether the cell is taken. -/
theorem bitAt_occ_add (g : Grid) (y x : Fin 3) :
    bitAt (occ g 0 + occ g 1) (cellIndex (y, x)) = if g.at y x = none then 0 else 1 := by
  have h := occ_add_bits g
  rw [bitAt_eq]
  fin_cases y <;> fin_cases x <;> simp [cellIndex] <;> omega

theorem cellIndex_lt (c : Fin 3 × Fin 3) : cellIndex c < 9 := by
  unfold cellIndex
  omega

/-- A piece of `p` set on an empty cell adds the bit of the cell to the set of
`p` and leaves the set of the other player as it is. -/
theorem occ_setBit (g : Grid) (x y : Fin 3) (p q : Fin 2) (h : g.at y x = none) :
    occ (setBit g x y p) q = occ g q + (if q = p then 2 ^ cellIndex (y, x) else 0) := by
  have hq : cellBit (some p) q = if q = p then 1 else 0 := by
    unfold cellBit
    by_cases hqp : q = p
    · simp [hqp]
    · have : ¬ p = q := fun h' => hqp h'.symm
      simp [hqp, this]
  have hn : cellBit (g.at y x) q = 0 := by simp [h, cellBit]
  simp only [occ, at_setBit]
  by_cases hqp : q = p
  · rw [if_pos hqp] at hq ⊢
    fin_cases y <;> fin_cases x <;> simp [cellIndex, hq] at hn ⊢ <;> omega
  · rw [if_neg hqp] at hq ⊢
    fin_cases y <;> fin_cases x <;> simp [cellIndex, hq] at hn ⊢ <;> omega

theorem nine_bits_full (e0 e1 e2 e3 e4 e5 e6 e7 e8 : Nat)
    (h0 : e0 ≤ 1) (h1 : e1 ≤ 1) (h2 : e2 ≤ 1) (h3 : e3 ≤ 1) (h4 : e4 ≤ 1) (h5 : e5 ≤ 1)
    (h6 : e6 ≤ 1) (h7 : e7 ≤ 1) :
    e0 + 2 * e1 + 4 * e2 + 8 * e3 + 16 * e4 + 32 * e5 + 64 * e6 + 128 * e7 + 256 * e8 = 511 ↔
      e0 = 1 ∧ e1 = 1 ∧ e2 = 1 ∧ e3 = 1 ∧ e4 = 1 ∧ e5 = 1 ∧ e6 = 1 ∧ e7 = 1 ∧ e8 = 1 := by
  omega

/-- The union of the two sets is the whole board exactly when `checkForDraw`
finds no empty holder. -/
theorem beq_511_eq_checkForDraw (g : Grid) :
    Nat.beq (occ g 0 + occ g 1) 511 = checkForDraw g := by
  have e : ∀ c : Option (Fin 2), cellBit c 0 + cellBit c 1 ≤ 1 ∧
      (cellBit c 0 + cellBit c 1 = 1 ↔ c.isSome = true) := by
    decide
  have hsum : occ g 0 + occ g 1
      = (cellBit (g.at 0 0) 0 + cellBit (g.at 0 0) 1)
        + 2 * (cellBit (g.at 0 1) 0 + cellBit (g.at 0 1) 1)
        + 4 * (cellBit (g.at 0 2) 0 + cellBit (g.at 0 2) 1)
        + 8 * (cellBit (g.at 1 0) 0 + cellBit (g.at 1 0) 1)
        + 16 * (cellBit (g.at 1 1) 0 + cellBit (g.at 1 1) 1)
        + 32 * (cellBit (g.at 1 2) 0 + cellBit (g.at 1 2) 1)
        + 64 * (cellBit (g.at 2 0) 0 + cellBit (g.at 2 0) 1)
        + 128 * (cellBit (g.at 2 1) 0 + cellBit (g.at 2 1) 1)
        + 256 * (cellBit (g.at 2 2) 0 + cellBit (g.at 2 2) 1) := by
    simp only [occ]
    omega
  have hfull := nine_bits_full _ _ _ _ _ _ _ _
    (cellBit (g.at 2 2) 0 + cellBit (g.at 2 2) 1) (e (g.at 0 0)).1 (e (g.at 0 1)).1
    (e (g.at 0 2)).1 (e (g.at 1 0)).1 (e (g.at 1 1)).1 (e (g.at 1 2)).1 (e (g.at 2 0)).1
    (e (g.at 2 1)).1
  rw [← hsum] at hfull
  simp only [(e _).2] at hfull
  have hdraw : checkForDraw g = true ↔ occ g 0 + occ g 1 = 511 := by
    rw [hfull]
    simp [checkForDraw, rowMajor]
  cases hb : Nat.beq (occ g 0 + occ g 1) 511
  · cases hd : checkForDraw g
    · rfl
    · have := hdraw.1 hd
      rw [this] at hb
      cases hb
  · exact (hdraw.2 (Nat.eq_of_beq_eq_true hb)).symm

/-- The owner found for one triple, read off the two sets. -/
theorem tripleOwner_eq (g : Grid) (t : Fin 9 × Fin 9 × Fin 9) :
    tripleOwner g t
      = if ownsLine (occ g 0) t then some 0
        else if ownsLine (occ g 1) t then some 1 else none := by
  have key : ∀ p1 p2 p3 : Option (Fin 2),
      (if p1 ≠ none ∧ p1 = p2 ∧ p2 = p3 then p1 else none)
        = if (Nat.beq (cellBit p1 0) 1 && Nat.beq (cellBit p2 0) 1
              && Nat.beq (cellBit p3 0) 1) = true then some 0
          else if (Nat.beq (cellBit p1 1) 1 && Nat.beq (cellBit p2 1) 1
              && Nat.beq (cellBit p3 1) 1) = true then some 1 else none := by
    decide
  simp only [tripleOwner, ownsLine, bitAt_occ_ownerAt]
  exact key _ _ _

theorem firstLineFrom_bounds (k : Nat) :
    ∀ (ts : List (Fin 9 × Fin 9 × Fin 9)) (j : Nat), j + ts.length = 8 →
      j ≤ firstLineFrom k ts j ∧ firstLineFrom k ts j ≤ 8 := by
  intro ts
  induction ts with
  | nil =>
    intro j hj
    simp only [firstLineFrom, List.length_nil] at hj ⊢
    omega
  | cons t ts ih =>
    intro j hj
    simp only [List.length_cons] at hj
    unfold firstLineFrom
    split
    · omega
    · have := ih (j + 1) (by omega)
      omega

/-- The first triple owned by a single player, in terms of the first triple
inside each of the two sets. -/
theorem findSome_tripleOwner (g : Grid) :
    ∀ (ts : List (Fin 9 × Fin 9 × Fin 9)) (j : Nat), j + ts.length = 8 →
      ts.findSome? (tripleOwner g)
        = if firstLineFrom (occ g 0) ts j ≤ firstLineFrom (occ g 1) ts j then
            (if firstLineFrom (occ g 0) ts j = 8 then none else some 0)
          else some 1 := by
  intro ts
  induction ts with
  | nil =>
    intro j _
    simp [firstLineFrom]
  | cons t ts ih =>
    intro j hj
    simp only [List.length_cons] at hj
    have b0 := firstLineFrom_bounds (occ g 0) ts (j + 1) (by omega)
    have b1 := firstLineFrom_bounds (occ g 1) ts (j + 1) (by omega)
    rw [List.findSome?_cons, tripleOwner_eq]
    unfold firstLineFrom
    by_cases h0 : ownsLine (occ g 0) t = true
    · simp only [h0, if_true]
      rw [if_pos (by split <;> omega), if_neg (by omega)]
    · simp only [h0, Bool.false_eq_true, if_false]
      by_cases h1 : ownsLine (occ g 1) t = true
      · simp only [h1, if_true]
        rw [if_neg (by omega)]
      · simp only [h1, Bool.false_eq_true, if_false]
        exact ih (j + 1) (by omega)

set_option maxRecDepth 100000 in
/-- Every entry of `firstLineTable` is what its description says. -/
theorem firstLine_eq : ∀ k, k < 512 → firstLine k = firstLineFrom k winningTriples 0 := by
  decide

/-- The function `fastWinner` on the two sets of a grid is `checkForWinner` on the grid. -/
theorem fastWinner_eq (g : Grid) :
    fastWinner (occ g 0) (occ g 1)
      = match checkForWinner g with
        | none => 0
        | some w => w.val + 1 := by
  have hf := findSome_tripleOwner g winningTriples 0 (by simp [winningTriples])
  have b0 := firstLineFrom_bounds (occ g 0) winningTriples 0 (by simp [winningTriples])
  unfold checkForWinner
  rw [hf]
  unfold fastWinner
  rw [firstLine_eq _ (occ_lt g 0), firstLine_eq _ (occ_lt g 1)]
  by_cases hle : firstLineFrom (occ g 0) winningTriples 0 ≤ firstLineFrom (occ g 1) winningTriples 0
  · rw [if_pos hle, Nat.ble_eq_true_of_le hle]
    simp only
    by_cases h8 : firstLineFrom (occ g 0) winningTriples 0 = 8
    · rw [if_pos h8, h8]
    · rw [if_neg h8]
      have : Nat.beq (firstLineFrom (occ g 0) winningTriples 0) 8 = false := by
        cases hb : Nat.beq (firstLineFrom (occ g 0) winningTriples 0) 8
        · rfl
        · exact absurd (Nat.eq_of_beq_eq_true hb) h8
      rw [this]
      rfl
  · rw [if_neg hle]
    have : Nat.ble (firstLineFrom (occ g 0) winningTriples 0)
        (firstLineFrom (occ g 1) winningTriples 0) = false := by
      cases hb : Nat.ble (firstLineFrom (occ g 0) winningTriples 0)
          (firstLineFrom (occ g 1) winningTriples 0)
      · rfl
      · exact absurd (Nat.le_of_ble_eq_true hb) hle
    rw [this]
    rfl

/-! ## The compact search computes the scores of `negamax` -/

theorem enc_neg (v : Int) (h1 : -1000 ≤ v) (h2 : v ≤ 1000) : 2000 - enc v = enc (-v) := by
  unfold enc
  omega

theorem enc_max (a b : Int) (h1 : -1000 ≤ a) (h2 : -1000 ≤ b) :
    natMax (enc a) (enc b) = enc (max a b) := by
  rw [natMax_eq]
  unfold enc
  omega

theorem ble_enc (a b : Int) (h1 : -1000 ≤ a) (h2 : -1000 ≤ b) :
    Nat.ble (enc a) (enc b) = decide (a ≤ b) := by
  by_cases h : a ≤ b
  · rw [decide_eq_true h]
    apply Nat.ble_eq_true_of_le
    unfold enc
    omega
  · rw [decide_eq_false h]
    cases hb : Nat.ble (enc a) (enc b)
    · rfl
    · have := Nat.le_of_ble_eq_true hb
      unfold enc at this
      omega

/-- The sets after a speculative move of `p`, as the compact loops build them. -/
theorem occ_move (g : Grid) (x y : Fin 3) (p : Fin 2) (h : g.at y x = none) {α : Type}
    (f : Nat → Nat → α) :
    (match p.val with
      | 0 => f (occ g 0 + 2 ^ cellIndex (y, x)) (occ g 1)
      | _ + 1 => f (occ g 0) (occ g 1 + 2 ^ cellIndex (y, x)))
      = f (occ (setBit g x y p) 0) (occ (setBit g x y p) 1) := by
  rw [occ_setBit g x y p 0 h, occ_setBit g x y p 1 h]
  fin_cases p <;> simp

theorem fastLoop_eq (fsearch : Nat → Nat → Nat → Nat → Nat) (search : Grid → Int → Int → Int)
    (p : Fin 2) (beta : Int) (g : Grid) (hb1 : -1000 ≤ beta) (hb2 : beta ≤ 1000)
    (hs : ∀ x y a b, g.at y x = none → -1000 ≤ a → a ≤ 1000 → -1000 ≤ b → b ≤ 1000 →
      -1000 ≤ search (setBit g x y p) a b ∧ search (setBit g x y p) a b ≤ 1000 ∧
      fsearch (occ (setBit g x y p) 0) (occ (setBit g x y p) 1) (enc a) (enc b)
        = enc (search (setBit g x y p) a b)) :
    ∀ (cells : List (Fin 3 × Fin 3)) (best alpha : Int),
      -1000 ≤ best → best ≤ 1000 → -1000 ≤ alpha → alpha ≤ 1000 →
      fastLoop fsearch (occ g 0) (occ g 1) p.val (enc beta) (cells.map cellIndex)
          (enc best) (enc alpha)
        = enc (scoreLoop search p beta g cells best alpha) := by
  intro cells
  induction cells with
  | nil =>
    intro best alpha _ _ _ _
    rfl
  | cons c rest ih =>
    intro best alpha hbe1 hbe2 ha1 ha2
    simp only [List.map_cons]
    unfold fastLoop scoreLoop
    rw [bitAt_occ_add g c.1 c.2]
    cases hc : g.at c.1 c.2 with
    | some o =>
      simp only [reduceCtorEq, if_false]
      exact ih best alpha hbe1 hbe2 ha1 ha2
    | none =>
      simp only [if_true, force_eq]
      obtain ⟨hr1, hr2, hr⟩ := hs c.2 c.1 (-beta) (-alpha) hc (by omega) (by omega)
        (by omega) (by omega)
      rw [enc_neg beta hb1 hb2, enc_neg alpha ha1 ha2,
        occ_move g c.2 c.1 p hc (fun x' o' => fsearch x' o' (enc (-beta)) (enc (-alpha))),
        hr, enc_neg _ hr1 hr2, enc_max _ _ ha1 (by omega), enc_max _ _ hbe1 (by omega),
        ble_enc _ _ hb1 (by omega)]
      by_cases hcut : max alpha (-search (setBit g c.2 c.1 p) (-beta) (-alpha)) ≥ beta
      · rw [decide_eq_true hcut, if_pos hcut]
      · rw [decide_eq_false hcut, if_neg hcut]
        exact ih _ _ (by omega) (by omega) (by omega) (by omega)

theorem rowMajor_map_cellIndex : rowMajor.map cellIndex = cellIndices := by
  decide

/-- The compact `negamax` returns the number standing for the score of `negamax`. -/
theorem fastNegamax_eq :
    ∀ (fuel : Nat) (g : Grid) (p : Fin 2) (depth alpha beta : Int),
      0 ≤ depth → depth + (countEmpty g : Int) ≤ 10 →
      -1000 ≤ alpha → alpha ≤ 1000 → -1000 ≤ beta → beta ≤ 1000 →
      fastNegamax fuel (occ g 0) (occ g 1) p.val depth.toNat (enc alpha) (enc beta)
        = enc (negamaxScore fuel g p depth alpha beta) := by
  intro fuel
  induction fuel with
  | zero =>
    intro g p depth alpha beta _ _ _ _ _ _
    rfl
  | succ fuel ih =>
    intro g p depth alpha beta hd1 hd2 ha1 ha2 hb1 hb2
    unfold fastNegamax negamaxScore
    simp only [force_eq]
    rw [fastWinner_eq g]
    cases hw : checkForWinner g with
    | some w =>
      simp only
      by_cases hwp : w = p
      · have : Nat.beq w.val p.val = true := by
          rw [hwp]
          exact Nat.beq_refl _
        rw [this, if_pos hwp]
        simp only [enc]
        omega
      · have : Nat.beq w.val p.val = false := by
          cases hbq : Nat.beq w.val p.val
          · rfl
          · exact absurd (Fin.ext (Nat.eq_of_beq_eq_true hbq)) hwp
        rw [this, if_neg hwp]
        simp only [enc]
        omega
    | none =>
      simp only
      rw [beq_511_eq_checkForDraw g]
      cases hdr : checkForDraw g with
      | true => rfl
      | false =>
        simp only [Bool.false_eq_true, if_false]
        rw [← rowMajor_map_cellIndex]
        have h0 : (0 : Nat) = enc (-1000) := rfl
        rw [h0]
        apply fastLoop_eq _ _ p beta g hb1 hb2 _ rowMajor (-1000) alpha (by omega) (by omega)
          ha1 ha2
        intro x y a b hxy h1 h2 h3 h4
        have hc := countEmpty_setBit g x y p hxy
        have hbd := negamaxScore_bound fuel (setBit g x y p) (1 - p) (depth + 1) a b
          (by omega) (by omega)
        refine ⟨by omega, by omega, ?_⟩
        have := ih (setBit g x y p) (1 - p) (depth + 1) a b (by omega) (by omega) h1 h2 h3 h4
        have hp : (1 - p).val = 1 - p.val := by
          fin_cases p <;> rfl
        have hdn : (depth + 1).toNat = depth.toNat + 1 := by omega
        rw [hp, hdn] at this
        exact this

theorem scoreLoop_congr (s1 s2 : Grid → Int → Int → Int) (p : Fin 2) (beta : Int) (g : Grid)
    (hs : ∀ x y a b, g.at y x = none → s1 (setBit g x y p) a b = s2 (setBit g x y p) a b) :
    ∀ (cells : List (Fin 3 × Fin 3)) (best alpha : Int),
      scoreLoop s1 p beta g cells best alpha = scoreLoop s2 p beta g cells best alpha := by
  intro cells
  induction cells with
  | nil => intro best alpha; rfl
  | cons c rest ih =>
    intro best alpha
    unfold scoreLoop
    cases hc : g.at c.1 c.2 with
    | some o => exact ih best alpha
    | none =>
      simp only [hs c.2 c.1 (-beta) (-alpha) hc]
      split
      · rfl
      · exact ih _ _

/-- The score does not depend on the fuel, once there is more of it than empty cells. -/
theorem negamaxScore_fuel :
    ∀ (fuel fuel' : Nat) (g : Grid) (p : Fin 2) (depth alpha beta : Int),
      countEmpty g < fuel → countEmpty g < fuel' →
      negamaxScore fuel g p depth alpha beta = negamaxScore fuel' g p depth alpha beta := by
  intro fuel
  induction fuel with
  | zero =>
    intro fuel' g p depth alpha beta h _
    omega
  | succ fuel ih =>
    intro fuel' g p depth alpha beta h h'
    cases fuel' with
    | zero => omega
    | succ fuel' =>
      unfold negamaxScore
      cases hw : checkForWinner g with
      | some w => rfl
      | none =>
        simp only
        split
        · rfl
        · apply scoreLoop_congr
          intro x y a b hxy
          have := countEmpty_setBit g x y p hxy
          exact ih fuel' _ _ _ _ _ (by omega) (by omega)

theorem selectLoop_congr (s1 s2 : Grid → Int) (g : Grid)
    (hs : ∀ x y, g.at y x = none → s1 (setBit g x y AI_PLAYER) = s2 (setBit g x y AI_PLAYER)) :
    ∀ (cells : List (Fin 3 × Fin 3)) (b : Int) (c : Option (Fin 3 × Fin 3)),
      selectLoop s1 g cells b c = selectLoop s2 g cells b c := by
  intro cells
  induction cells with
  | nil => intro b c; rfl
  | cons a cells ih =>
    intro b c
    unfold selectLoop
    cases ha : g.at a.1 a.2 with
    | some o => exact ih b c
    | none =>
      simp only [hs a.2 a.1 ha]
      split
      · exact ih _ _
      · exact ih b c

theorem mem_rowMajor (c : Fin 3 × Fin 3) : c ∈ rowMajor := by
  revert c
  decide

theorem ai_ne_human : AI_PLAYER ≠ HUMAN_PLAYER := by
  decide

/-- At depth 1 the pruned score is the minimax value. -/
theorem negamaxScore_eq_minimaxValue (fuel : Nat) (g : Grid) (p : Fin 2) :
    negamaxScore fuel g p 1 (-1000) 1000 = minimaxValue fuel g p 1 := by
  have hle := countEmpty_le g
  have hb := negamaxScore_bound fuel g p 1 (-1000) 1000 (by omega) (by omega)
  have hs := negamaxScore_sound fuel g p 1 (-1000) 1000 (by omega) (by omega) (by omega)
  exact hs.2.2 (by omega) (by omega)

/-- The function `updateAI` and the same selection with the unpruned search, in full. -/
theorem updateAI_eq_unpruned (fuel : Nat) (s : Game) (hf : countEmpty s.grid ≤ fuel) :
    (∃ s', updateAI fuel s = some s' ∧
      updateAIWith (fun g => negamaxUnpruned fuel g HUMAN_PLAYER 1 (-1000) 1000) s = some s') ∧
    ∀ x y, s.grid.at y x = none →
      ∃ score, negamax fuel (setBit s.grid x y AI_PLAYER) HUMAN_PLAYER 1 (-1000) 1000
          = some (score, setBit s.grid x y AI_PLAYER) ∧
        negamaxUnpruned fuel (setBit s.grid x y AI_PLAYER) HUMAN_PLAYER 1 (-1000) 1000
          = some (score, setBit s.grid x y AI_PLAYER) := by
  have hcell : ∀ x y, s.grid.at y x = none →
      negamax fuel (setBit s.grid x y AI_PLAYER) HUMAN_PLAYER 1 (-1000) 1000
          = some (minimaxValue fuel (setBit s.grid x y AI_PLAYER) HUMAN_PLAYER 1,
              setBit s.grid x y AI_PLAYER) ∧
        negamaxUnpruned fuel (setBit s.grid x y AI_PLAYER) HUMAN_PLAYER 1 (-1000) 1000
          = some (minimaxValue fuel (setBit s.grid x y AI_PLAYER) HUMAN_PLAYER 1,
              setBit s.grid x y AI_PLAYER) := by
    intro x y hxy
    have hc := countEmpty_setBit s.grid x y AI_PLAYER hxy
    constructor
    · rw [negamax_eq_score fuel _ _ _ _ _ (by omega), negamaxScore_eq_minimaxValue]
    · exact negamaxUnpruned_eq_value fuel _ _ _ _ _ (by omega)
  refine ⟨?_, fun x y hxy => ⟨_, hcell x y hxy⟩⟩
  by_cases hturn : s.currentPlayer = AI_PLAYER
  · have hlt : ∀ x y, s.grid.at y x = none →
        -(fun g => minimaxValue fuel g HUMAN_PLAYER 1) (setBit s.grid x y AI_PLAYER) < 10 := by
      intro x y hxy
      have h1 := countEmpty_setBit s.grid x y AI_PLAYER hxy
      have h2 := countEmpty_le s.grid
      have := negamaxScore_bound fuel (setBit s.grid x y AI_PLAYER) HUMAN_PLAYER 1 (-1000) 1000
        (by omega) (by omega)
      rw [negamaxScore_eq_minimaxValue] at this
      show -minimaxValue fuel (setBit s.grid x y AI_PLAYER) HUMAN_PLAYER 1 < 10
      omega
    refine ⟨commitBest s
      (selectLoop (fun g => minimaxValue fuel g HUMAN_PLAYER 1) s.grid rowMajor (-1000) none).2,
      ?_, ?_⟩
    · exact updateAIWith_eq (fun g => negamax fuel g HUMAN_PLAYER 1 (-1000) 1000)
        (fun g => minimaxValue fuel g HUMAN_PLAYER 1) s (fun x y hxy => (hcell x y hxy).1)
        hlt hturn
    · exact updateAIWith_eq (fun g => negamaxUnpruned fuel g HUMAN_PLAYER 1 (-1000) 1000)
        (fun g => minimaxValue fuel g HUMAN_PLAYER 1) s (fun x y hxy => (hcell x y hxy).2)
        hlt hturn
  · exact ⟨s, updateAIWith_not_turn _ s hturn, updateAIWith_not_turn _ s hturn⟩

/-! ## The human player cannot force a win -/

theorem valueLoop_le_iff (value : Grid → Int) (p : Fin 2) (g : Grid) (B : Int) :
    ∀ (cells : List (Fin 3 × Fin 3)) (best : Int),
      valueLoop value p g cells best ≤ B ↔
        best ≤ B ∧ ∀ c ∈ cells, g.at c.1 c.2 = none → -value (setBit g c.2 c.1 p) ≤ B := by
  intro cells
  induction cells with
  | nil => intro best; simp [valueLoop]
  | cons a rest ih =>
    intro best
    unfold valueLoop
    cases ha : g.at a.1 a.2 with
    | some o =>
      simp only
      rw [ih]
      constructor
      · rintro ⟨h1, h2⟩
        refine ⟨h1, fun c hc he => ?_⟩
        rcases List.mem_cons.1 hc with h | h
        · subst h
          rw [ha] at he
          cases he
        · exact h2 c h he
      · rintro ⟨h1, h2⟩
        exact ⟨h1, fun c hc he => h2 c (List.mem_cons_of_mem _ hc) he⟩
    | none =>
      simp only
      rw [ih]
      constructor
      · rintro ⟨h1, h2⟩
        refine ⟨le_trans (le_max_left _ _) h1, fun c hc he => ?_⟩
        rcases List.mem_cons.1 hc with h | h
        · subst h
          exact le_trans (le_max_right _ _) h1
        · exact h2 c h he
      · rintro ⟨h1, h2⟩
        exact ⟨max_le h1 (h2 a (List.mem_cons_self _ _) ha),
          fun c hc he => h2 c (List.mem_cons_of_mem _ hc) he⟩

theorem le_valueLoop_iff (value : Grid → Int) (p : Fin 2) (g : Grid) (B : Int) :
    ∀ (cells : List (Fin 3 × Fin 3)) (best : Int),
      B ≤ valueLoop value p g cells best ↔
        B ≤ best ∨ ∃ c ∈ cells, g.at c.1 c.2 = none ∧ B ≤ -value (setBit g c.2 c.1 p) := by
  intro cells
  induction cells with
  | nil => intro best; simp [valueLoop]
  | cons a rest ih =>
    intro best
    unfold valueLoop
    cases ha : g.at a.1 a.2 with
    | some o =>
      simp only
      rw [ih]
      constructor
      · rintro (h | ⟨c, hc, he, hB⟩)
        · exact Or.inl h
        · exact Or.inr ⟨c, List.mem_cons_of_mem _ hc, he, hB⟩
      · rintro (h | ⟨c, hc, he, hB⟩)
        · exact Or.inl h
        · rcases List.mem_cons.1 hc with h | h
          · subst h
            rw [ha] at he
            cases he
          · exact Or.inr ⟨c, h, he, hB⟩
    | none =>
      simp only
      rw [ih]
      constructor
      · rintro (h | ⟨c, hc, he, hB⟩)
        · rcases le_max_iff.1 h with h' | h'
          · exact Or.inl h'
          · exact Or.inr ⟨a, List.mem_cons_self _ _, ha, h'⟩
        · exact Or.inr ⟨c, List.mem_cons_of_mem _ hc, he, hB⟩
      · rintro (h | ⟨c, hc, he, hB⟩)
        · exact Or.inl (le_max_of_le_left h)
        · rcases List.mem_cons.1 hc with h | h
          · subst h
            exact Or.inl (le_max_of_le_right hB)
          · exact Or.inr ⟨c, h, he, hB⟩

theorem valueLoop_congr (v1 v2 : Grid → Int) (p : Fin 2) (g : Grid)
    (hs : ∀ x y, g.at y x = none → v1 (setBit g x y p) = v2 (setBit g x y p)) :
    ∀ (cells : List (Fin 3 × Fin 3)) (best : Int),
      valueLoop v1 p g cells best = valueLoop v2 p g cells best := by
  intro cells
  induction cells with
  | nil => intro best; rfl
  | cons c rest ih =>
    intro best
    unfold valueLoop
    cases hc : g.at c.1 c.2 with
    | some o => exact ih best
    | none =>
      simp only [hs c.2 c.1 hc]
      exact ih _

/-- The minimax value does not depend on the fuel, once there is more of it than
empty cells. -/
theorem minimaxValue_fuel :
    ∀ (fuel fuel' : Nat) (g : Grid) (p : Fin 2) (depth : Int),
      countEmpty g < fuel → countEmpty g < fuel' →
      minimaxValue fuel g p depth = minimaxValue fuel' g p depth := by
  intro fuel
  induction fuel with
  | zero =>
    intro fuel' g p depth h _
    omega
  | succ fuel ih =>
    intro fuel' g p depth h h'
    cases fuel' with
    | zero => omega
    | succ fuel' =>
      unfold minimaxValue
      cases hw : checkForWinner g with
      | some w => rfl
      | none =>
        simp only
        split
        · rfl
        · apply valueLoop_congr
          intro x y hxy
          have := countEmpty_setBit g x y p hxy
          exact ih fuel' _ _ _ (by omega) (by omega)

theorem minimaxValue_of_not_over (fuel : Nat) (g : Grid) (p : Fin 2) (depth : Int)
    (hw : checkForWinner g = none) (hd : checkForDraw g = false) :
    minimaxValue (fuel + 1) g p depth
      = valueLoop (fun g' => minimaxValue fuel g' (1 - p) (depth + 1)) p g rowMajor (-1000) := by
  conv_lhs => unfold minimaxValue
  simp only [hw, hd, Bool.false_eq_true, if_false]

/-- The sign of the minimax value does not depend on the depth, as long as the
depth leaves room for the empty cells of the grid. -/
theorem minimaxValue_sign :
    ∀ (fuel : Nat) (g : Grid) (p : Fin 2) (d d' : Int),
      countEmpty g < fuel → 0 ≤ d → 0 ≤ d' →
      d + (countEmpty g : Int) ≤ 9 → d' + (countEmpty g : Int) ≤ 9 →
      (minimaxValue fuel g p d ≤ 0 ↔ minimaxValue fuel g p d' ≤ 0) ∧
        (0 ≤ minimaxValue fuel g p d ↔ 0 ≤ minimaxValue fuel g p d') := by
  intro fuel
  induction fuel with
  | zero =>
    intro g p d d' h
    omega
  | succ fuel ih =>
    intro g p d d' hf h0 h0' h9 h9'
    cases hw : checkForWinner g with
    | some w =>
      unfold minimaxValue
      simp only [hw]
      by_cases hwp : w = p
      · simp only [hwp, if_true]
        omega
      · simp only [hwp, if_false]
        omega
    | none =>
      cases hd : checkForDraw g with
      | true =>
        unfold minimaxValue
        simp only [hw]
        rw [if_pos hd, if_pos hd]
        omega
      | false =>
        rw [minimaxValue_of_not_over fuel g p d hw hd,
          minimaxValue_of_not_over fuel g p d' hw hd]
        have hchild : ∀ c : Fin 3 × Fin 3, g.at c.1 c.2 = none →
            (minimaxValue fuel (setBit g c.2 c.1 p) (1 - p) (d + 1) ≤ 0 ↔
              minimaxValue fuel (setBit g c.2 c.1 p) (1 - p) (d' + 1) ≤ 0) ∧
            (0 ≤ minimaxValue fuel (setBit g c.2 c.1 p) (1 - p) (d + 1) ↔
              0 ≤ minimaxValue fuel (setBit g c.2 c.1 p) (1 - p) (d' + 1)) := by
          intro c hc
          have hcnt := countEmpty_setBit g c.2 c.1 p hc
          exact ih _ _ _ _ (by omega) (by omega) (by omega) (by omega) (by omega)
        constructor
        · rw [valueLoop_le_iff, valueLoop_le_iff]
          constructor
          · rintro ⟨h1, h2⟩
            refine ⟨h1, fun c hc he => ?_⟩
            have h3 := h2 c hc he
            beta_reduce at h3 ⊢
            have := (hchild c he).2.1 (by omega)
            omega
          · rintro ⟨h1, h2⟩
            refine ⟨h1, fun c hc he => ?_⟩
            have h3 := h2 c hc he
            beta_reduce at h3 ⊢
            have := (hchild c he).2.2 (by omega)
            omega
        · rw [le_valueLoop_iff, le_valueLoop_iff]
          constructor
          · rintro (h | ⟨c, hc, he, hB⟩)
            · exact Or.inl h
            · have := (hchild c he).1.1 (by omega)
              exact Or.inr ⟨c, hc, he, by omega⟩
          · rintro (h | ⟨c, hc, he, hB⟩)
            · exact Or.inl h
            · have := (hchild c he).1.2 (by omega)
              exact Or.inr ⟨c, hc, he, by omega⟩

/-- The best score kept by the selection of `updateAI` is the running maximum
of the candidate scores. -/
theorem selectLoop_fst (score : Grid → Int) (g : Grid) :
    ∀ (cells : List (Fin 3 × Fin 3)) (b : Int) (bc : Option (Fin 3 × Fin 3)),
      (selectLoop score g cells b bc).1 = valueLoop score AI_PLAYER g cells b := by
  intro cells
  induction cells with
  | nil => intro b bc; rfl
  | cons a rest ih =>
    intro b bc
    unfold selectLoop valueLoop
    cases ha : g.at a.1 a.2 with
    | some o => exact ih b bc
    | none =>
      simp only
      split
      · rw [ih, max_eq_right (by omega)]
      · rw [ih, max_eq_left (by omega)]

/-- The selection either keeps what it started from or ends on an empty cell
whose score is the best score. -/
theorem selectLoop_attained (score : Grid → Int) (g : Grid) :
    ∀ (cells : List (Fin 3 × Fin 3)) (b : Int) (bc : Option (Fin 3 × Fin 3)),
      ((selectLoop score g cells b bc).1 = b ∧ (selectLoop score g cells b bc).2 = bc) ∨
        ∃ c, (selectLoop score g cells b bc).2 = some c ∧ g.at c.1 c.2 = none ∧
          -score (setBit g c.2 c.1 AI_PLAYER) = (selectLoop score g cells b bc).1 := by
  intro cells
  induction cells with
  | nil => intro b bc; exact Or.inl ⟨rfl, rfl⟩
  | cons a rest ih =>
    intro b bc
    unfold selectLoop
    cases ha : g.at a.1 a.2 with
    | some o => exact ih b bc
    | none =>
      simp only
      split
      · rcases ih (-score (setBit g a.2 a.1 AI_PLAYER)) (some a) with ⟨h1, h2⟩ | h
        · exact Or.inr ⟨a, h2, ha, h1.symm⟩
        · exact Or.inr h
      · exact ih b bc

set_option maxRecDepth 100000 in
/-- The search from the empty board, on the compact form, with the window (0, 1). -/
theorem fastNegamax_start : fastNegamax 10 0 0 0 0 1000 1001 = 1000 := by
  decide!

/-- From the empty board the human player cannot force a win. -/
theorem safe_emptyGrid : Safe emptyGrid := by
  have hsim := fastNegamax_eq 10 emptyGrid HUMAN_PLAYER 0 0 1 (by omega) (by decide)
    (by omega) (by omega) (by omega) (by omega)
  have hstart : fastNegamax 10 (occ emptyGrid 0) (occ emptyGrid 1) HUMAN_PLAYER.val
      (0 : Int).toNat (enc 0) (enc 1) = 1000 := fastNegamax_start
  rw [hstart] at hsim
  have hb := negamaxScore_bound 10 emptyGrid HUMAN_PLAYER 0 0 1 (by omega) (by decide)
  have hscore : negamaxScore 10 emptyGrid HUMAN_PLAYER 0 0 1 = 0 := by
    unfold enc at hsim
    omega
  have hs := negamaxScore_sound 10 emptyGrid HUMAN_PLAYER 0 0 1 (by omega) (by omega) (by omega)
  refine ⟨0, le_refl 0, by decide, ?_⟩
  have := hs.1 (by omega)
  omega

/-- On a safe grid the human player has not won. -/
theorem safe_no_human_win (g : Grid) (hsafe : Safe g) :
    checkForWinner g ≠ some HUMAN_PLAYER := by
  obtain ⟨d, hd0, hd9, hval⟩ := hsafe
  intro hwin
  have : minimaxValue 10 g HUMAN_PLAYER d = 10 - d := by
    show minimaxValue (9 + 1) g HUMAN_PLAYER d = 10 - d
    unfold minimaxValue
    simp only [hwin]
    rw [if_pos trivial]
  omega

/-- On a safe grid that is not over, after any move of the human player,
player 0 has not won, and if the game is not over `updateAI` plays a cell that
leads to a safe grid. -/
theorem safe_step (fuel : Nat) (hf : 9 ≤ fuel) (g : Grid) (hsafe : Safe g)
    (hw : checkForWinner g = none) (hd : checkForDraw g = false) (x y : Fin 3)
    (hempty : g.at y x = none) :
    checkForWinner (setBit g x y HUMAN_PLAYER) ≠ some HUMAN_PLAYER ∧
      (checkForWinner (setBit g x y HUMAN_PLAYER) = none →
        checkForDraw (setBit g x y HUMAN_PLAYER) = false →
        ∃ c : Fin 3 × Fin 3, (setBit g x y HUMAN_PLAYER).at c.1 c.2 = none ∧
          updateAI fuel ⟨setBit g x y HUMAN_PLAYER, AI_PLAYER⟩
            = some ⟨setBit (setBit g x y HUMAN_PLAYER) c.2 c.1 AI_PLAYER, HUMAN_PLAYER⟩ ∧
          Safe (setBit (setBit g x y HUMAN_PLAYER) c.2 c.1 AI_PLAYER)) := by
  obtain ⟨d, hd0, hd9, hval⟩ := hsafe
  have hcnt := countEmpty_setBit g x y HUMAN_PLAYER hempty
  have hle := countEmpty_le g
  rw [minimaxValue_of_not_over 9 g HUMAN_PLAYER d hw hd, valueLoop_le_iff] at hval
  have hreply : 0 ≤ minimaxValue 9 (setBit g x y HUMAN_PLAYER) AI_PLAYER (d + 1) := by
    have := hval.2 (y, x) (mem_rowMajor _) hempty
    have hp : (1 : Fin 2) - HUMAN_PLAYER = AI_PLAYER := by decide
    simp only [hp] at this
    omega
  constructor
  · intro hwin
    have : minimaxValue 9 (setBit g x y HUMAN_PLAYER) AI_PLAYER (d + 1) = -10 + (d + 1) := by
      show minimaxValue (8 + 1) (setBit g x y HUMAN_PLAYER) AI_PLAYER (d + 1) = -10 + (d + 1)
      unfold minimaxValue
      simp only [hwin]
      rw [if_neg ai_ne_human.symm]
    omega
  · intro hw1 hd1
    have hsign := (minimaxValue_sign 9 (setBit g x y HUMAN_PLAYER) AI_PLAYER (d + 1) 0
      (by omega) (by omega) (by omega) (by omega) (by omega)).2.1 hreply
    rw [minimaxValue_of_not_over 8 _ AI_PLAYER 0 hw1 hd1] at hsign
    have hp : (1 : Fin 2) - AI_PLAYER = HUMAN_PLAYER := by decide
    simp only [hp, zero_add] at hsign
    have hcongr := selectLoop_congr
      (fun g' => negamaxScore fuel g' HUMAN_PLAYER 1 (-1000) 1000)
      (fun g' => minimaxValue 8 g' HUMAN_PLAYER 1) (setBit g x y HUMAN_PLAYER)
      (by
        intro x' y' hxy
        have := countEmpty_setBit (setBit g x y HUMAN_PLAYER) x' y' AI_PLAYER hxy
        show negamaxScore fuel _ HUMAN_PLAYER 1 (-1000) 1000 = minimaxValue 8 _ HUMAN_PLAYER 1
        rw [negamaxScore_eq_minimaxValue]
        exact minimaxValue_fuel fuel 8 _ _ _ (by omega) (by omega))
      rowMajor (-1000) none
    have hfst := selectLoop_fst (fun g' => minimaxValue 8 g' HUMAN_PLAYER 1)
      (setBit g x y HUMAN_PLAYER) rowMajor (-1000) none
    rw [← hfst] at hsign
    rcases selectLoop_attained (fun g' => minimaxValue 8 g' HUMAN_PLAYER 1)
      (setBit g x y HUMAN_PLAYER) rowMajor (-1000) none with ⟨h1, _⟩ | ⟨c, hc2, hce, hcs⟩
    · omega
    · have hcc := countEmpty_setBit (setBit g x y HUMAN_PLAYER) c.2 c.1 AI_PLAYER hce
      refine ⟨c, hce, ?_, ⟨1, by omega, by omega, ?_⟩⟩
      · rw [updateAI_eq fuel ⟨setBit g x y HUMAN_PLAYER, AI_PLAYER⟩ (by simp only; omega) rfl]
        simp only [hcongr, hc2]
        rfl
      · rw [minimaxValue_fuel 10 8 _ _ _ (by omega) (by omega)]
        omega

/-- The invariant of the games against the search. -/
theorem reachable_inv (fuel : Nat) (hf : 9 ≤ fuel) (s : Game) (h : Reachable fuel s) :
    (s.currentPlayer = HUMAN_PLAYER → Safe s.grid) ∧
      (s.currentPlayer = AI_PLAYER →
        checkForWinner s.grid ≠ some HUMAN_PLAYER ∧
          (checkForWinner s.grid = none → checkForDraw s.grid = false →
            ∃ c : Fin 3 × Fin 3, s.grid.at c.1 c.2 = none ∧
              updateAI fuel s = some ⟨setBit s.grid c.2 c.1 AI_PLAYER, HUMAN_PLAYER⟩ ∧
              Safe (setBit s.grid c.2 c.1 AI_PLAYER))) := by
  induction h with
  | start =>
    exact ⟨fun _ => safe_emptyGrid, fun h => absurd h.symm ai_ne_human⟩
  | human s x y _ hturn hw hd hempty ih =>
    obtain ⟨g, cur⟩ := s
    simp only at hturn hw hd hempty
    subst hturn
    have hs1 : endTurn (actionForEmptyHolder ⟨g, HUMAN_PLAYER⟩ x y).2
        = ⟨setBit g x y HUMAN_PLAYER, AI_PLAYER⟩ := by
      simp [actionForEmptyHolder, hempty, endTurn, HUMAN_PLAYER, AI_PLAYER]
    rw [hs1]
    exact ⟨fun h => absurd h ai_ne_human,
      fun _ => safe_step fuel hf g (ih.1 rfl) hw hd x y hempty⟩
  | ai s s' _ hturn hw hd hupd ih =>
    obtain ⟨c, _, hu, hsafe⟩ := (ih.2 hturn).2 hw hd
    rw [hu] at hupd
    cases hupd
    exact ⟨fun _ => hsafe, fun h => absurd h.symm ai_ne_human⟩

/-! ## A piece cannot complete a line of the other player -/

theorem tripleOwner_eq_some (g : Grid) (t : Fin 9 × Fin 9 × Fin 9) (q : Fin 2) :
    tripleOwner g t = some q ↔
      ownerAt g t.1 = some q ∧ ownerAt g t.2.1 = some q ∧ ownerAt g t.2.2 = some q := by
  unfold tripleOwner
  generalize ownerAt g t.1 = p1
  generalize ownerAt g t.2.1 = p2
  generalize ownerAt g t.2.2 = p3
  revert p1 p2 p3 q
  decide

theorem tripleOwner_eq_none (g : Grid) (t : Fin 9 × Fin 9 × Fin 9) :
    tripleOwner g t = none ↔
      ∀ q, ¬(ownerAt g t.1 = some q ∧ ownerAt g t.2.1 = some q ∧ ownerAt g t.2.2 = some q) := by
  unfold tripleOwner
  generalize ownerAt g t.1 = p1
  generalize ownerAt g t.2.1 = p2
  generalize ownerAt g t.2.2 = p3
  revert p1 p2 p3
  decide

theorem ownerAt_setBit (g : Grid) (x y : Fin 3) (p : Fin 2) (i : Fin 9) :
    ownerAt (setBit g x y p) i
      = if i.val / 3 = y.val ∧ i.val % 3 = x.val then some p else ownerAt g i := by
  unfold ownerAt
  rw [at_setBit]
  simp [Fin.ext_iff]

/-- On a grid without a winner, a piece of `p` does not make the other player win. -/
theorem checkForWinner_setBit_ne (g : Grid) (x y : Fin 3) (p q : Fin 2) (hpq : q ≠ p)
    (hw : checkForWinner g = none) : checkForWinner (setBit g x y p) ≠ some q := by
  intro h
  unfold checkForWinner at h hw
  obtain ⟨t, ht, hto⟩ := List.exists_of_findSome?_eq_some h
  have hnone := List.findSome?_eq_none_iff.1 hw t ht
  rw [tripleOwner_eq_some] at hto
  rw [tripleOwner_eq_none] at hnone
  apply hnone q
  have key : ∀ i : Fin 9, ownerAt (setBit g x y p) i = some q → ownerAt g i = some q := by
    intro i hi
    rw [ownerAt_setBit] at hi
    split at hi
    · simp only [Option.some.injEq] at hi
      exact absurd hi.symm hpq
    · exact hi
  exact ⟨key _ hto.1, key _ hto.2.1, key _ hto.2.2⟩

/-! ## A winning cell is selected -/

theorem selectLoop_lt_of_mem (score : Grid → Int) (g : Grid) (M : Int) :
    ∀ (cells : List (Fin 3 × Fin 3)) (b : Int) (c : Option (Fin 3 × Fin 3)),
      (∀ a ∈ cells, g.at a.1 a.2 = none → -score (setBit g a.2 a.1 AI_PLAYER) < M) →
      b < M → (selectLoop score g cells b c).1 < M := by
  intro cells
  induction cells with
  | nil => intro b c _ hb; exact hb
  | cons a cells ih =>
    intro b c hlt hb
    have hlt' : ∀ a' ∈ cells, g.at a'.1 a'.2 = none →
        -score (setBit g a'.2 a'.1 AI_PLAYER) < M :=
      fun a' ha' => hlt a' (List.mem_cons_of_mem _ ha')
    unfold selectLoop
    cases ha : g.at a.1 a.2 with
    | some o => exact ih b c hlt' hb
    | none =>
      simp only
      split
      · exact ih _ _ hlt' (hlt a (List.mem_cons_self _ _) ha)
      · exact ih b c hlt' hb

/-- The selection does not change on cells whose score does not exceed the best
score so far. -/
theorem selectLoop_keep (score : Grid → Int) (g : Grid) :
    ∀ (cells : List (Fin 3 × Fin 3)) (b : Int) (c : Option (Fin 3 × Fin 3)),
      (∀ a ∈ cells, g.at a.1 a.2 = none → -score (setBit g a.2 a.1 AI_PLAYER) ≤ b) →
      selectLoop score g cells b c = (b, c) := by
  intro cells
  induction cells with
  | nil => intro b c _; rfl
  | cons a cells ih =>
    intro b c hle
    have hle' : ∀ a' ∈ cells, g.at a'.1 a'.2 = none →
        -score (setBit g a'.2 a'.1 AI_PLAYER) ≤ b :=
      fun a' ha' => hle a' (List.mem_cons_of_mem _ ha')
    unfold selectLoop
    cases ha : g.at a.1 a.2 with
    | some o => exact ih b c hle'
    | none =>
      simp only
      have := hle a (List.mem_cons_self _ _) ha
      rw [if_neg (by omega)]
      exact ih b c hle'

/-- The score of a grid on which the AI player has won, seen by the human
player at depth 1, is -9. -/
theorem negamaxScore_of_ai_win (fuel : Nat) (g : Grid) (alpha beta : Int)
    (hw : checkForWinner g = some AI_PLAYER) :
    negamaxScore (fuel + 1) g HUMAN_PLAYER 1 alpha beta = -9 := by
  unfold negamaxScore
  rw [hw]
  simp only
  rw [if_neg ai_ne_human]
  rfl

/-- The first empty cell, in loop order, that completes a line of the AI player
is the cell `updateAI` plays. -/
theorem updateAI_winning_cell (fuel : Nat) (s : Game) (l1 l2 : List (Fin 3 × Fin 3))
    (c : Fin 3 × Fin 3) (hf : countEmpty s.grid ≤ fuel) (hturn : s.currentPlayer = AI_PLAYER)
    (hw : checkForWinner s.grid = none) (hrow : rowMajor = l1 ++ c :: l2)
    (hc : s.grid.at c.1 c.2 = none)
    (hwin : checkForWinner (setBit s.grid c.2 c.1 AI_PLAYER) = some AI_PLAYER)
    (hfirst : ∀ a ∈ l1, s.grid.at a.1 a.2 = none →
      checkForWinner (setBit s.grid a.2 a.1 AI_PLAYER) ≠ some AI_PLAYER) :
    updateAI fuel s = some ⟨setBit s.grid c.2 c.1 AI_PLAYER, HUMAN_PLAYER⟩ := by
  obtain ⟨g, cur⟩ := s
  simp only at hf hturn hw hc hwin hfirst
  subst hturn
  have hle := countEmpty_le g
  have hcnt := countEmpty_setBit g c.2 c.1 AI_PLAYER hc
  obtain ⟨fuel', rfl⟩ : ∃ k, fuel = k + 1 := ⟨fuel - 1, by omega⟩
  rw [updateAI_eq _ _ hf rfl]
  simp only
  rw [hrow, selectLoop_append]
  have hpre := selectLoop_lt_of_mem
    (fun g' => negamaxScore (fuel' + 1) g' HUMAN_PLAYER 1 (-1000) 1000) g 9 l1 (-1000) none
    (by
      intro a ha hempty
      have hca := countEmpty_setBit g a.2 a.1 AI_PLAYER hempty
      have hne : checkForWinner (setBit g a.2 a.1 AI_PLAYER) = none := by
        cases hwa : checkForWinner (setBit g a.2 a.1 AI_PLAYER) with
        | none => rfl
        | some w =>
          exfalso
          by_cases hwai : w = AI_PLAYER
          · subst hwai
            exact hfirst a ha hempty hwa
          · exact checkForWinner_setBit_ne g a.2 a.1 AI_PLAYER w hwai hw hwa
      have := negamaxScore_bound_of_no_winner (fuel' + 1) (setBit g a.2 a.1 AI_PLAYER)
        HUMAN_PLAYER 1 (-1000) 1000 (by omega) (by omega) (by omega) hne
      show -negamaxScore (fuel' + 1) (setBit g a.2 a.1 AI_PLAYER) HUMAN_PLAYER 1 (-1000) 1000 < 9
      omega)
    (by omega)
  unfold selectLoop
  simp only [hc]
  rw [negamaxScore_of_ai_win fuel' _ _ _ hwin, if_pos (by omega)]
  rw [selectLoop_keep _ g l2 _ _ (by
    intro a _ hempty
    have hca := countEmpty_setBit g a.2 a.1 AI_PLAYER hempty
    have := negamaxScore_bound (fuel' + 1) (setBit g a.2 a.1 AI_PLAYER) HUMAN_PLAYER 1
      (-1000) 1000 (by omega) (by omega)
    show -negamaxScore (fuel' + 1) (setBit g a.2 a.1 AI_PLAYER) HUMAN_PLAYER 1 (-1000) 1000
      ≤ - -9
    omega)]
  rfl

/-! ## Serialisation -/

theorem stateString_foldl (g : Grid) :
    ∀ (cells : List (Fin 3 × Fin 3)) (acc : String),
      (cells.foldl
        (fun state c =>
          match g.at c.1 c.2 with
          | none => state ++ "0"
          | some playerNum => state ++ toString (playerNum.val + 1))
        acc).data = acc.data ++ cells.map fun c => cellChar (g.at c.1 c.2) := by
  intro cells
  induction cells with
  | nil => intro acc; simp
  | cons c rest ih =>
    intro acc
    rw [List.foldl_cons, ih]
    cases hc : g.at c.1 c.2 with
    | none => simp [cellChar, hc]
    | some p =>
      have hp : (toString (p.val + 1)).data = [cellChar (some p)] := by
        fin_cases p <;> rfl
      simp [hc, hp]

/-- The characters of `stateString`, in order. -/
theorem stateString_data (g : Grid) :
    (stateString g).data = rowMajor.map fun c => cellChar (g.at c.1 c.2) := by
  unfold stateString
  rw [stateString_foldl]
  rfl

theorem clear_all (g : Grid) :
    rowMajor.foldl (fun acc c => destroyBit acc c.2 c.1) g = emptyGrid := by
  obtain ⟨⟨a0, a1, a2⟩, ⟨b0, b1, b2⟩, ⟨c0, c1, c2⟩⟩ := g
  rfl

theorem takeWhile_lt_eq_filter (n : Int) :
    ((List.finRange 9).takeWhile fun i => decide ((i.val : Int) < n))
      = (List.finRange 9).filter fun i => decide ((i.val : Int) < n) := by
  have hp : (fun i : Fin 9 => decide ((i.val : Int) < n))
      = fun i : Fin 9 => decide (i.val < n.toNat) := by
    funext i
    rw [decide_eq_decide]
    exact Int.lt_toNat.symm
  rw [hp]
  rcases Nat.lt_or_ge n.toNat 9 with h | h
  · generalize n.toNat = m at h
    interval_cases m <;> rfl
  · have hall : ∀ i ∈ List.finRange 9,
        (fun i : Fin 9 => decide (i.val < n.toNat)) i = true := by
      intro i _
      have := i.isLt
      simp only [decide_eq_true_eq]
      omega
    rw [List.takeWhile_eq_self_iff.2 hall, List.filter_eq_self.2 hall]

theorem foldl_filter_eq {α β : Type} (p : α → Bool) (f : β → α → β) :
    ∀ (l : List α) (init : β),
      (l.filter p).foldl f init = l.foldl (fun acc a => if p a then f acc a else acc) init := by
  intro l
  induction l with
  | nil => intro init; rfl
  | cons a l ih =>
    intro init
    by_cases ha : p a = true
    · simp [List.filter_cons, ha, ih]
    · simp [List.filter_cons, ha, ih]

theorem char_eq_of_toNat (ch : Char) (c : Char) (h : ch.toNat = c.toNat) : ch = c := by
  apply Char.ext
  apply UInt32.ext
  exact h

theorem setStateCell_eq (g : Grid) (i : Fin 9) (ch : Char) :
    setStateCell g i ch
      = match charCell ch with
        | some p => setBit g ⟨i.val % 3, by omega⟩ ⟨i.val / 3, by omega⟩ p
        | none => g := by
  unfold setStateCell charCell
  by_cases h1 : ch = '1'
  · subst h1
    rfl
  · by_cases h2 : ch = '2'
    · subst h2
      rfl
    · have n1 : ch.toNat ≠ ('1' : Char).toNat := fun h => h1 (char_eq_of_toNat _ _ h)
      have n2 : ch.toNat ≠ ('2' : Char).toNat := fun h => h2 (char_eq_of_toNat _ _ h)
      have e0 : ('0' : Char).toNat = 48 := rfl
      have e1 : ('1' : Char).toNat = 49 := rfl
      have e2 : ('2' : Char).toNat = 50 := rfl
      rw [e1] at n1
      rw [e2] at n2
      simp only [h1, h2, if_false, e0]
      rw [if_neg (by omega)]

/-- The loop of `setStateString` as one step per cell index. -/
theorem setStateString_eq (g : Grid) (s : String) :
    setStateString g s
      = (List.finRange 9).foldl
          (fun acc i =>
            match (readChar s i).bind charCell with
            | some p => setBit acc ⟨i.val % 3, by omega⟩ ⟨i.val / 3, by omega⟩ p
            | none => acc)
          emptyGrid := by
  unfold setStateString
  simp only [clear_all]
  rw [takeWhile_lt_eq_filter, foldl_filter_eq]
  congr 1
  funext acc i
  unfold readChar
  by_cases hi : (i.val : Int) < toInt32 s.length
  · rw [if_pos (decide_eq_true hi), if_pos hi]
    cases hg : s.data.get? i.val with
    | none => rfl
    | some ch => exact setStateCell_eq acc i ch
  · rw [if_neg (by simpa using hi), if_neg hi]
    rfl

theorem ownerAt_put (acc : Grid) (j : Fin 9) (o : Option (Fin 2)) (i : Fin 9) :
    ownerAt
      (match o with
        | some p => setBit acc ⟨j.val % 3, by omega⟩ ⟨j.val / 3, by omega⟩ p
        | none => acc) i
      = if i = j then
          (match o with
            | some p => some p
            | none => ownerAt acc i)
        else ownerAt acc i := by
  cases o with
  | none => simp
  | some p =>
    simp only [ownerAt_setBit, Fin.ext_iff]
    have := i.isLt
    have := j.isLt
    by_cases h : i.val = j.val
    · rw [if_pos h, if_pos (by omega)]
    · rw [if_neg h, if_neg (by omega)]

theorem ownerAt_foldl_put (o : Fin 9 → Option (Fin 2)) (i : Fin 9) :
    ∀ (l : List (Fin 9)) (acc : Grid), l.Nodup →
      ownerAt
        (l.foldl
          (fun acc j =>
            match o j with
            | some p => setBit acc ⟨j.val % 3, by omega⟩ ⟨j.val / 3, by omega⟩ p
            | none => acc)
          acc) i
        = if i ∈ l then
            (match o i with
              | some p => some p
              | none => ownerAt acc i)
          else ownerAt acc i := by
  intro l
  induction l with
  | nil => intro acc _; simp
  | cons j l ih =>
    intro acc hnd
    rw [List.nodup_cons] at hnd
    rw [List.foldl_cons, ih _ hnd.2, ownerAt_put]
    by_cases hij : i = j
    · subst hij
      simp only [if_true, List.mem_cons, true_or]
      rw [if_neg hnd.1]
    · simp only [hij, if_false, List.mem_cons, false_or]

theorem ownerAt_emptyGrid (i : Fin 9) : ownerAt emptyGrid i = none := by
  fin_cases i <;> rfl

/-- After `setStateString` the cell with index `i` holds what the character read
for it says, whatever the grid held before. -/
theorem ownerAt_setStateString (g : Grid) (s : String) (i : Fin 9) :
    ownerAt (setStateString g s) i = (readChar s i).bind charCell := by
  rw [setStateString_eq]
  rw [ownerAt_foldl_put (fun j => (readChar s j).bind charCell) i (List.finRange 9)
    emptyGrid (List.nodup_finRange 9)]
  rw [if_pos (List.mem_finRange i), ownerAt_emptyGrid]
  cases (readChar s i).bind charCell <;> rfl

theorem toInt32_of_lt (n : Nat) (h : n < 2147483648) : toInt32 n = (n : Int) := by
  unfold toInt32
  have h1 : n % 4294967296 = n := Nat.mod_eq_of_lt (by omega)
  rw [h1, if_pos h]

/-- On a text of fewer than `2^31` characters the loop reads the character at
index `i` whenever there is one. -/
theorem readChar_of_lt (s : String) (i : Fin 9) (h : s.length < 2147483648) :
    readChar s i = s.data.get? i.val := by
  unfold readChar
  rw [toInt32_of_lt s.length h]
  by_cases hi : (i.val : Int) < (s.length : Int)
  · rw [if_pos hi]
  · rw [if_neg hi]
    symm
    rw [List.get?_eq_none]
    have : s.length = s.data.length := rfl
    omega

theorem longText_length : longText.length = 2147483648 := by
  show (List.replicate 2147483648 '1').length = 2147483648
  exact List.length_replicate _ _

theorem readChar_longText (i : Fin 9) : readChar longText i = none := by
  unfold readChar
  rw [longText_length]
  have h : toInt32 2147483648 = -2147483648 := by decide
  rw [h, if_neg (by omega)]

theorem Grid.ext_ownerAt {g g' : Grid} (h : ∀ i, ownerAt g i = ownerAt g' i) : g = g' := by
  apply Grid.ext_at
  intro y x
  have hi := h ⟨3 * y.val + x.val, by omega⟩
  have hy : (⟨(3 * y.val + x.val) / 3, by omega⟩ : Fin 3) = y := Fin.ext (by simp only; omega)
  have hx : (⟨(3 * y.val + x.val) % 3, by omega⟩ : Fin 3) = x := Fin.ext (by simp only; omega)
  simp only [ownerAt, hy, hx] at hi
  exact hi

theorem charCell_cellChar (c : Option (Fin 2)) : charCell (cellChar c) = c := by
  revert c
  decide

theorem stateString_get (g : Grid) (i : Fin 9) :
    (stateString g).data.get? i.val = some (cellChar (ownerAt g i)) := by
  rw [stateString_data]
  fin_cases i <;> rfl

theorem stateString_length (g : Grid) : (stateString g).length = 9 := by
  show (stateString g).data.length = 9
  rw [stateString_data]
  rfl

/-- The loop of `setStateString` reads all nine characters of a `stateString`. -/
theorem readChar_stateString (g : Grid) (i : Fin 9) :
    readChar (stateString g) i = some (cellChar (ownerAt g i)) := by
  rw [readChar_of_lt _ _ (by rw [stateString_length]; decide), stateString_get]

theorem checkForDraw_iff (g : Grid) : checkForDraw g = true ↔ ∀ y x, g.at y x ≠ none := by
  unfold checkForDraw
  rw [List.all_eq_true]
  constructor
  · intro h y x hn
    have := h (y, x) (mem_rowMajor _)
    simp [hn] at this
  · intro h c _
    cases hc : g.at c.1 c.2 with
    | none => exact absurd hc (h c.1 c.2)
    | some o => rfl

/-! ## What a top-level search leaves behind -/

/-- The inner loop of `updateAI` hands back the grid it was given and keeps an
empty cell as best cell, whatever the scoring call returns, provided the call
hands back its grid. -/
theorem updateAIRow_frame (search : Grid → Option (Int × Grid)) (g : Grid) (y : Fin 3)
    (hs : ∀ g0 r g', search g0 = some (r, g') → g' = g0) :
    ∀ (xs : List (Fin 3)) (b : Int) (bc : Option (Fin 3 × Fin 3)) (st' : SearchState),
      (∀ c, bc = some c → g.at c.1 c.2 = none) →
      updateAIRow search y xs ⟨g, b, bc⟩ = some st' →
      st'.grid = g ∧ ∀ c, st'.best = some c → g.at c.1 c.2 = none := by
  intro xs
  induction xs with
  | nil =>
    intro b bc st' hbc h
    simp only [updateAIRow, Option.some.injEq] at h
    subst h
    exact ⟨rfl, hbc⟩
  | cons x xs ih =>
    intro b bc st' hbc h
    unfold updateAIRow at h
    simp only at h
    cases hc : g.at y x with
    | some o =>
      rw [hc] at h
      exact ih b bc st' hbc h
    | none =>
      rw [hc] at h
      simp only at h
      cases hsr : search (setBit g x y AI_PLAYER) with
      | none => rw [hsr] at h; cases h
      | some rg =>
        obtain ⟨r, g1⟩ := rg
        rw [hsr] at h
        simp only at h
        have hg1 : g1 = setBit g x y AI_PLAYER := hs _ _ _ hsr
        have hg2 : destroyBit g1 x y = g := by
          rw [hg1]
          exact destroyBit_setBit g x y AI_PLAYER hc
        rw [hg2] at h
        have hcell : ∀ c, some (y, x) = some c → g.at c.1 c.2 = none := by
          intro c hcc
          cases hcc
          exact hc
        by_cases h1 : -r > b
        · rw [if_pos h1] at h
          by_cases h2 : -r ≥ 10
          · rw [if_pos h2] at h
            simp only [Option.some.injEq] at h
            subst h
            exact ⟨rfl, hcell⟩
          · rw [if_neg h2] at h
            exact ih (-r) (some (y, x)) st' hcell h
        · rw [if_neg h1] at h
          exact ih b bc st' hbc h

theorem updateAIRows_frame (search : Grid → Option (Int × Grid)) (g : Grid)
    (hs : ∀ g0 r g', search g0 = some (r, g') → g' = g0) :
    ∀ (ys : List (Fin 3)) (b : Int) (bc : Option (Fin 3 × Fin 3)) (st' : SearchState),
      (∀ c, bc = some c → g.at c.1 c.2 = none) →
      updateAIRows search ys ⟨g, b, bc⟩ = some st' →
      st'.grid = g ∧ ∀ c, st'.best = some c → g.at c.1 c.2 = none := by
  intro ys
  induction ys with
  | nil =>
    intro b bc st' hbc h
    simp only [updateAIRows, Option.some.injEq] at h
    subst h
    exact ⟨rfl, hbc⟩
  | cons y ys ih =>
    intro b bc st' hbc h
    unfold updateAIRows at h
    cases hr : updateAIRow search y [0, 1, 2] ⟨g, b, bc⟩ with
    | none => rw [hr] at h; cases h
    | some st1 =>
      rw [hr] at h
      simp only at h
      obtain ⟨hg, hb⟩ := updateAIRow_frame search g y hs [0, 1, 2] b bc st1 hbc hr
      by_cases h10 : st1.bestScore ≥ 10
      · rw [if_pos h10] at h
        simp only [Option.some.injEq] at h
        subst h
        exact ⟨hg, hb⟩
      · rw [if_neg h10] at h
        obtain ⟨g1, b1, bc1⟩ := st1
        simp only at hg hb
        subst hg
        exact ih b1 bc1 st' hb h

/-- Whenever `updateAI` returns, it has left the state as it was or has played
one piece of the AI player on an empty cell and passed the turn. -/
theorem updateAIWith_frame (search : Grid → Option (Int × Grid)) (s s' : Game)
    (hs : ∀ g0 r g', search g0 = some (r, g') → g' = g0)
    (h : updateAIWith search s = some s') :
    s' = s ∨ (s.currentPlayer = AI_PLAYER ∧
      ∃ c : Fin 3 × Fin 3, s.grid.at c.1 c.2 = none ∧
        s' = ⟨setBit s.grid c.2 c.1 AI_PLAYER, 1 - s.currentPlayer⟩) := by
  by_cases hturn : s.currentPlayer = AI_PLAYER
  · unfold updateAIWith at h
    rw [if_neg (not_not.2 hturn)] at h
    cases hr : updateAIRows search [0, 1, 2] ⟨s.grid, -1000, none⟩ with
    | none => rw [hr] at h; cases h
    | some st =>
      rw [hr] at h
      simp only at h
      obtain ⟨hg, hb⟩ := updateAIRows_frame search s.grid hs [0, 1, 2] (-1000) none st
        (by intro c hc; cases hc) hr
      cases hbest : st.best with
      | none =>
        rw [hbest] at h
        simp only [Option.some.injEq] at h
        left
        rw [← h, hg]
      | some c =>
        rw [hbest] at h
        simp only at h
        have hc := hb c hbest
        right
        refine ⟨hturn, c, hc, ?_⟩
        rw [hg] at h
        simp only [actionForEmptyHolder, hc, if_true, endTurn, Option.some.injEq] at h
        rw [← h, hturn]
  · left
    rw [updateAIWith_not_turn search s hturn] at h
    cases h
    rfl

theorem updateAI_frame (fuel : Nat) (s s' : Game) (h : updateAI fuel s = some s') :
    s' = s ∨ (s.currentPlayer = AI_PLAYER ∧
      ∃ c : Fin 3 × Fin 3, s.grid.at c.1 c.2 = none ∧
        s' = ⟨setBit s.grid c.2 c.1 AI_PLAYER, 1 - s.currentPlayer⟩) :=
  updateAIWith_frame _ s s' (fun g0 r g' h0 => negamax_grid fuel g0 _ _ _ _ r g' h0) h

/-! ## Piece counts and the player to move -/

theorem countP_update {α : Type} (P Q : α → Bool) (c : α) :
    ∀ l : List α, l.Nodup → c ∈ l → P c = false → Q c = true →
      (∀ a ∈ l, a ≠ c → Q a = P a) → l.countP Q = l.countP P + 1 := by
  intro l
  induction l with
  | nil => intro _ hc; cases hc
  | cons a rest ih =>
    intro hnd hc hP hQ hrest
    rw [List.nodup_cons] at hnd
    by_cases hac : a = c
    · subst hac
      have hsame : rest.countP Q = rest.countP P := by
        apply List.countP_congr
        intro b hb
        have hne : b ≠ a := fun h => hnd.1 (h ▸ hb)
        rw [hrest b (List.mem_cons_of_mem _ hb) hne]
      rw [List.countP_cons_of_pos _ _ hQ, List.countP_cons_of_neg _ _ (by simp [hP]), hsame]
    · have hc' : c ∈ rest := by
        rcases List.mem_cons.1 hc with h | h
        · exact absurd h.symm hac
        · exact h
      have ih' := ih hnd.2 hc' hP hQ (fun b hb hne => hrest b (List.mem_cons_of_mem _ hb) hne)
      have hqa : Q a = P a := hrest a (List.mem_cons_self _ _) hac
      cases hpa : P a with
      | true =>
        rw [List.countP_cons_of_pos _ _ (by rw [hqa, hpa]), List.countP_cons_of_pos _ _ hpa, ih']
      | false =>
        rw [List.countP_cons_of_neg _ _ (by rw [hqa, hpa]; simp),
          List.countP_cons_of_neg _ _ (by rw [hpa]; simp), ih']

theorem rowMajor_nodup : rowMajor.Nodup := by decide

theorem countOwned_setBit_same (g : Grid) (x y : Fin 3) (p : Fin 2) (h : g.at y x = none) :
    countOwned (setBit g x y p) p = countOwned g p + 1 := by
  unfold countOwned
  apply countP_update _ _ (y, x) rowMajor rowMajor_nodup (mem_rowMajor _)
  · simp [h]
  · simp [at_setBit]
  · intro a _ hne
    have : ¬(a.1 = y ∧ a.2 = x) := fun hh => hne (Prod.ext hh.1 hh.2)
    simp only [at_setBit, if_neg this]

theorem countOwned_setBit_other (g : Grid) (x y : Fin 3) (p q : Fin 2) (hqp : q ≠ p)
    (h : g.at y x = none) : countOwned (setBit g x y p) q = countOwned g q := by
  unfold countOwned
  apply List.countP_congr
  intro a _
  rw [at_setBit]
  by_cases ha : a.1 = y ∧ a.2 = x
  · rw [if_pos ha, ha.1, ha.2, h]
    simp [hqp.symm]
  · rw [if_neg ha]

/-- Placing the current player's piece on an empty cell and passing the turn
keeps the relation between the piece counts and the player to move. -/
theorem turn_inv_place (g : Grid) (cur : Fin 2) (x y : Fin 3) (h : g.at y x = none)
    (hinv : countOwned g 0 = countOwned g 1 + cur.val) :
    countOwned (setBit g x y cur) 0 = countOwned (setBit g x y cur) 1 + (1 - cur).val := by
  have h2 : ∀ p : Fin 2, p = 0 ∨ p = 1 := by decide
  rcases h2 cur with hc | hc
  · subst hc
    rw [countOwned_setBit_same g x y 0 h, countOwned_setBit_other g x y 0 1 (by decide) h]
    simp at hinv ⊢
    omega
  · subst hc
    rw [countOwned_setBit_same g x y 1 h, countOwned_setBit_other g x y 1 0 (by decide) h]
    simp at hinv ⊢
    omega

theorem actionForEmptyHolder_true (s : Game) (x y : Fin 3)
    (h : (actionForEmptyHolder s x y).1 = true) :
    s.grid.at y x = none ∧
      (actionForEmptyHolder s x y).2 = ⟨setBit s.grid x y s.currentPlayer, s.currentPlayer⟩ := by
  unfold actionForEmptyHolder at h ⊢
  cases hc : s.grid.at y x with
  | none => exact ⟨rfl, rfl⟩
  | some o => rw [hc] at h; cases h

theorem played_inv (s : Game) (h : Played s) :
    countOwned s.grid 0 = countOwned s.grid 1 + s.currentPlayer.val := by
  induction h with
  | start => decide
  | place s x y _ hok ih =>
    obtain ⟨hempty, hs⟩ := actionForEmptyHolder_true s x y hok
    rw [hs]
    exact turn_inv_place s.grid s.currentPlayer x y hempty ih
  | search fuel s s' _ hupd ih =>
    rcases updateAI_frame fuel s s' hupd with h | ⟨hturn, c, hc, h⟩
    · rw [h]
      exact ih
    · rw [h]
      have hstep := turn_inv_place s.grid s.currentPlayer c.2 c.1 hc ih
      rw [hturn] at hstep ⊢
      exact hstep

/-! ## Lines owned on boards met in play -/

theorem checkForWinner_eq_none_iff (g : Grid) :
    checkForWinner g = none ↔ ∀ t ∈ winningTriples, ∀ q, ¬LineOwnedBy g t q := by
  unfold checkForWinner
  rw [List.findSome?_eq_none_iff]
  simp only [tripleOwner_eq_none, LineOwnedBy]

/-- A line owned after a placement was owned before it, or belongs to the
player who placed. -/
theorem lineOwnedBy_setBit (g : Grid) (x y : Fin 3) (p q : Fin 2)
    (t : Fin 9 × Fin 9 × Fin 9) (h : LineOwnedBy (setBit g x y p) t q) :
    LineOwnedBy g t q ∨ q = p := by
  unfold LineOwnedBy at h ⊢
  simp only [ownerAt_setBit] at h
  obtain ⟨h1, h2, h3⟩ := h
  split at h1
  · right; exact (Option.some.inj h1).symm
  · split at h2
    · right; exact (Option.some.inj h2).symm
    · split at h3
      · right; exact (Option.some.inj h3).symm
      · left; exact ⟨h1, h2, h3⟩

theorem legalPlay_one_owner (s : Game) (h : LegalPlay s) :
    ∀ t ∈ winningTriples, ∀ t' ∈ winningTriples, ∀ p q,
      LineOwnedBy s.grid t p → LineOwnedBy s.grid t' q → p = q := by
  induction h with
  | start =>
    intro t _ t' _ p q h1 _
    have := h1.1
    rw [ownerAt_emptyGrid] at this
    cases this
  | place s x y _ hw hd hok _ =>
    obtain ⟨_, hs⟩ := actionForEmptyHolder_true s x y hok
    rw [hs]
    have hnone := (checkForWinner_eq_none_iff s.grid).1 hw
    intro t ht t' ht' p q h1 h2
    have e1 : p = s.currentPlayer := by
      rcases lineOwnedBy_setBit s.grid x y s.currentPlayer p t h1 with h | h
      · exact absurd h (hnone t ht p)
      · exact h
    have e2 : q = s.currentPlayer := by
      rcases lineOwnedBy_setBit s.grid x y s.currentPlayer q t' h2 with h | h
      · exact absurd h (hnone t' ht' q)
      · exact h
    rw [e1, e2]

theorem findSome_perm_of_one_owner (g : Grid) (ts : List (Fin 9 × Fin 9 × Fin 9))
    (hperm : ts.Perm winningTriples)
    (hone : ∀ t ∈ winningTriples, ∀ t' ∈ winningTriples, ∀ p q,
      LineOwnedBy g t p → LineOwnedBy g t' q → p = q) :
    ts.findSome? (tripleOwner g) = checkForWinner g := by
  cases h1 : ts.findSome? (tripleOwner g) with
  | none =>
    symm
    rw [checkForWinner_eq_none_iff]
    intro t ht q hq
    rw [List.findSome?_eq_none_iff] at h1
    have := h1 t (hperm.mem_iff.2 ht)
    rw [tripleOwner_eq_none] at this
    exact this q hq
  | some p =>
    obtain ⟨t, ht, htp⟩ := List.exists_of_findSome?_eq_some h1
    rw [tripleOwner_eq_some] at htp
    cases h2 : checkForWinner g with
    | none =>
      exact absurd htp ((checkForWinner_eq_none_iff g).1 h2 t (hperm.mem_iff.1 ht) p)
    | some q =>
      unfold checkForWinner at h2
      obtain ⟨t', ht', htq⟩ := List.exists_of_findSome?_eq_some h2
      rw [tripleOwner_eq_some] at htq
      rw [hone t (hperm.mem_iff.1 ht) t' ht' p q htp htq]

/-! ## The cell selected by the top-level loops -/

/-- The selection loops return the first cell, in the order visited, among the
empty cells of greatest score, unless no empty cell beats the running best. -/
theorem selectLoop_first_max (score : Grid → Int) (g : Grid) :
    ∀ (cells : List (Fin 3 × Fin 3)) (b : Int) (bc : Option (Fin 3 × Fin 3)),
      (selectLoop score g cells b bc = (b, bc) ∧
          ∀ a ∈ cells, g.at a.1 a.2 = none → -score (setBit g a.2 a.1 AI_PLAYER) ≤ b) ∨
        ∃ l1 c l2, cells = l1 ++ c :: l2 ∧ g.at c.1 c.2 = none ∧
          b < -score (setBit g c.2 c.1 AI_PLAYER) ∧
          selectLoop score g cells b bc = (-score (setBit g c.2 c.1 AI_PLAYER), some c) ∧
          (∀ a ∈ l1, g.at a.1 a.2 = none →
            -score (setBit g a.2 a.1 AI_PLAYER) < -score (setBit g c.2 c.1 AI_PLAYER)) ∧
          (∀ a ∈ l2, g.at a.1 a.2 = none →
            -score (setBit g a.2 a.1 AI_PLAYER) ≤ -score (setBit g c.2 c.1 AI_PLAYER)) := by
  intro cells
  induction cells with
  | nil =>
    intro b bc
    left
    exact ⟨rfl, fun a ha => absurd ha (List.not_mem_nil a)⟩
  | cons a rest ih =>
    intro b bc
    unfold selectLoop
    cases ha : g.at a.1 a.2 with
    | some o =>
      simp only []
      rcases ih b bc with ⟨h1, h2⟩ | ⟨l1, c, l2, hl, hc, hb, hsel, hlt, hle⟩
      · left
        refine ⟨h1, ?_⟩
        intro a' ha' he
        rcases List.mem_cons.1 ha' with h | h
        · rw [h, ha] at he; cases he
        · exact h2 a' h he
      · right
        refine ⟨a :: l1, c, l2, by rw [hl]; rfl, hc, hb, hsel, ?_, hle⟩
        intro a' ha' he
        rcases List.mem_cons.1 ha' with h | h
        · rw [h, ha] at he; cases he
        · exact hlt a' h he
    | none =>
      simp only []
      by_cases hgt : -score (setBit g a.2 a.1 AI_PLAYER) > b
      · rw [if_pos hgt]
        rcases ih (-score (setBit g a.2 a.1 AI_PLAYER)) (some a) with
          ⟨h1, h2⟩ | ⟨l1, c, l2, hl, hc, hb, hsel, hlt, hle⟩
        · right
          exact ⟨[], a, rest, rfl, ha, hgt, h1,
            fun a' ha' => absurd ha' (List.not_mem_nil a'), h2⟩
        · right
          refine ⟨a :: l1, c, l2, by rw [hl]; rfl, hc, lt_trans hgt hb, hsel, ?_, hle⟩
          intro a' ha' he
          rcases List.mem_cons.1 ha' with h | h
          · rw [h]; exact hb
          · exact hlt a' h he
      · rw [if_neg hgt]
        rcases ih b bc with ⟨h1, h2⟩ | ⟨l1, c, l2, hl, hc, hb, hsel, hlt, hle⟩
        · left
          refine ⟨h1, ?_⟩
          intro a' ha' he
          rcases List.mem_cons.1 ha' with h | h
          · rw [h]; exact not_lt.1 hgt
          · exact h2 a' h he
        · right
          refine ⟨a :: l1, c, l2, by rw [hl]; rfl, hc, hb, hsel, ?_, hle⟩
          intro a' ha' he
          rcases List.mem_cons.1 ha' with h | h
          · rw [h]; exact lt_of_le_of_lt (not_lt.1 hgt) hb
          · exact hlt a' h he

/-- The score of a candidate cell of `updateAI` lies between -9 and 9. -/
theorem candidate_bound (fuel : Nat) (g : Grid) (x y : Fin 3) (h : g.at y x = none) :
    -9 ≤ negamaxScore fuel (setBit g x y AI_PLAYER) HUMAN_PLAYER 1 (-1000) 1000 ∧
      negamaxScore fuel (setBit g x y AI_PLAYER) HUMAN_PLAYER 1 (-1000) 1000 ≤ 9 := by
  have h1 := countEmpty_setBit g x y AI_PLAYER h
  have h2 := countEmpty_le g
  have := negamaxScore_bound fuel (setBit g x y AI_PLAYER) HUMAN_PLAYER 1 (-1000) 1000
    (by omega) (by omega)
  omega

theorem candidateScore_eq (fuel : Nat) (g : Grid) (c : Fin 3 × Fin 3)
    (hf : countEmpty g ≤ fuel) (h : g.at c.1 c.2 = none) :
    candidateScore fuel g c
      = some (-negamaxScore fuel (setBit g c.2 c.1 AI_PLAYER) HUMAN_PLAYER 1 (-1000) 1000) := by
  have h1 := countEmpty_setBit g c.2 c.1 AI_PLAYER h
  unfold candidateScore
  rw [negamax_eq_score fuel _ _ _ _ _ (by omega)]

/-- On the AI player's turn, on a board with an empty cell, `updateAI` plays the
first cell in row-major order among the empty cells of greatest score. -/
theorem updateAI_first_best (fuel : Nat) (s : Game) (hf : countEmpty s.grid ≤ fuel)
    (hturn : s.currentPlayer = AI_PLAYER) (hempty : ∃ y x, s.grid.at y x = none) :
    ∃ l1 c l2 sc, rowMajor = l1 ++ c :: l2 ∧ s.grid.at c.1 c.2 = none ∧
      candidateScore fuel s.grid c = some sc ∧
      updateAI fuel s = some ⟨setBit s.grid c.2 c.1 AI_PLAYER, HUMAN_PLAYER⟩ ∧
      (∀ a ∈ l1, s.grid.at a.1 a.2 = none →
        ∃ sa, candidateScore fuel s.grid a = some sa ∧ sa < sc) ∧
      (∀ a ∈ l2, s.grid.at a.1 a.2 = none →
        ∃ sa, candidateScore fuel s.grid a = some sa ∧ sa ≤ sc) := by
  have hu := updateAI_eq fuel s hf hturn
  rcases selectLoop_first_max (fun g => negamaxScore fuel g HUMAN_PLAYER 1 (-1000) 1000)
      s.grid rowMajor (-1000) none with ⟨_, h2⟩ | ⟨l1, c, l2, hl, hc, _, hsel, hlt, hle⟩
  · obtain ⟨y, x, hyx⟩ := hempty
    have := h2 (y, x) (mem_rowMajor _) hyx
    have hb := candidate_bound fuel s.grid x y hyx
    simp only at this
    omega
  · rw [hsel] at hu
    refine ⟨l1, c, l2, _, hl, hc, candidateScore_eq fuel s.grid c hf hc, ?_, ?_, ?_⟩
    · rw [hu]
      simp only [commitBest, endTurn, hturn]
      rfl
    · intro a ha he
      exact ⟨_, candidateScore_eq fuel s.grid a hf he, hlt a ha he⟩
    · intro a ha he
      exact ⟨_, candidateScore_eq fuel s.grid a hf he, hle a ha he⟩

theorem countEmpty_eq_zero (g : Grid) (h : ∀ y x, g.at y x ≠ none) : countEmpty g = 0 := by
  unfold countEmpty
  rw [List.countP_eq_zero]
  intro a _
  cases ha : g.at a.1 a.2 with
  | none => exact absurd ha (h a.1 a.2)
  | some o => simp

/-- On a board without an empty cell `updateAI` changes nothing. -/
theorem updateAI_full (fuel : Nat) (s : Game) (h : ∀ y x, s.grid.at y x ≠ none) :
    updateAI fuel s = some s := by
  by_cases hturn : s.currentPlayer = AI_PLAYER
  · rw [updateAI_eq fuel s (by rw [countEmpty_eq_zero s.grid h]; exact Nat.zero_le _) hturn]
    rw [selectLoop_keep _ s.grid rowMajor (-1000) none
      (fun a _ he => absurd he (h a.1 a.2))]
    rfl
  · exact updateAIWith_not_turn _ s hturn

/-! ## Claims -/

/-- C1: the search never loses.  In every game from the empty board in which the
human player (player 0) moves first on any empty cell while the game is not
over and every move of player 1 is the one made by `updateAI`, no state is
reached on which `checkForWinner` returns player 0; and on every such state
with the AI player to move and the game not over `updateAI` returns, plays one
cell and passes the turn, so that each game ends with player 1 winning or with
a full board without winner. -/
theorem C1_search_never_loses (fuel : Nat) (hf : 9 ≤ fuel) (s : Game)
    (h : Reachable fuel s) :
    checkForWinner s.grid ≠ some HUMAN_PLAYER ∧
      (s.currentPlayer = AI_PLAYER → checkForWinner s.grid = none →
        checkForDraw s.grid = false →
        ∃ s', updateAI fuel s = some s' ∧ s'.currentPlayer = HUMAN_PLAYER ∧
          countEmpty s'.grid + 1 = countEmpty s.grid) := by
  have hinv := reachable_inv fuel hf s h
  constructor
  · by_cases hturn : s.currentPlayer = AI_PLAYER
    · exact (hinv.2 hturn).1
    · have : s.currentPlayer = HUMAN_PLAYER := by
        have h2 : ∀ p : Fin 2, p ≠ AI_PLAYER → p = HUMAN_PLAYER := by decide
        exact h2 _ hturn
      exact safe_no_human_win s.grid (hinv.1 this)
  · intro hturn hw hd
    obtain ⟨c, hc, hu, _⟩ := (hinv.2 hturn).2 hw hd
    exact ⟨_, hu, rfl, countEmpty_setBit s.grid c.2 c.1 AI_PLAYER hc⟩

theorem C1_search_never_loses_witness :
    9 ≤ 9 ∧ Reachable 9 afterCentre ∧
      checkForWinner afterCentre.grid ≠ some HUMAN_PLAYER ∧
      (afterCentre.currentPlayer = AI_PLAYER → checkForWinner afterCentre.grid = none →
        checkForDraw afterCentre.grid = false →
        ∃ s', updateAI 9 afterCentre = some s' ∧ s'.currentPlayer = HUMAN_PLAYER ∧
          countEmpty s'.grid + 1 = countEmpty afterCentre.grid) :=
  ⟨le_refl 9,
    Reachable.human ⟨emptyGrid, HUMAN_PLAYER⟩ 1 1 Reachable.start rfl (by decide) (by decide)
      (by decide),
    C1_search_never_loses 9 (le_refl 9) afterCentre
      (Reachable.human ⟨emptyGrid, HUMAN_PLAYER⟩ 1 1 Reachable.start rfl (by decide)
        (by decide) (by decide))⟩

/-- C2: forced-win detection.  On a board without winner, on the AI player's
turn, let `c` be the first cell in row-major order that is empty and on which a
piece of the AI player completes a line.  Then `updateAI` plays `c` and passes
the turn, and `checkForWinner` returns the AI player afterwards. -/
theorem C2_forced_win (fuel : Nat) (s : Game) (l1 l2 : List (Fin 3 × Fin 3))
    (c : Fin 3 × Fin 3) (hf : countEmpty s.grid ≤ fuel) (hturn : s.currentPlayer = AI_PLAYER)
    (hw : checkForWinner s.grid = none) (hrow : rowMajor = l1 ++ c :: l2)
    (hc : s.grid.at c.1 c.2 = none)
    (hwin : checkForWinner (setBit s.grid c.2 c.1 AI_PLAYER) = some AI_PLAYER)
    (hfirst : ∀ a ∈ l1, s.grid.at a.1 a.2 = none →
      checkForWinner (setBit s.grid a.2 a.1 AI_PLAYER) ≠ some AI_PLAYER) :
    ∃ s', updateAI fuel s = some s' ∧ s'.grid = setBit s.grid c.2 c.1 AI_PLAYER ∧
      s'.currentPlayer = HUMAN_PLAYER ∧ checkForWinner s'.grid = some AI_PLAYER :=
  ⟨_, updateAI_winning_cell fuel s l1 l2 c hf hturn hw hrow hc hwin hfirst, rfl, rfl, hwin⟩

theorem C2_forced_win_witness :
    countEmpty twoInTopRow ≤ 9 ∧ AI_PLAYER = AI_PLAYER ∧ checkForWinner twoInTopRow = none ∧
      rowMajor = [(0, 0), (0, 1)] ++ (0, 2) :: [(1, 0), (1, 1), (1, 2), (2, 0), (2, 1), (2, 2)] ∧
      twoInTopRow.at 0 2 = none ∧
      checkForWinner (setBit twoInTopRow 2 0 AI_PLAYER) = some AI_PLAYER ∧
      ∃ s', updateAI 9 ⟨twoInTopRow, AI_PLAYER⟩ = some s' ∧
        s'.grid = setBit twoInTopRow 2 0 AI_PLAYER ∧ s'.currentPlayer = HUMAN_PLAYER ∧
        checkForWinner s'.grid = some AI_PLAYER :=
  ⟨by decide, rfl, by decide, by decide, by decide, by decide,
    C2_forced_win 9 ⟨twoInTopRow, AI_PLAYER⟩ [(0, 0), (0, 1)]
      [(1, 0), (1, 1), (1, 2), (2, 0), (2, 1), (2, 2)] (0, 2) (by decide) rfl (by decide)
      (by decide) (by decide) (by decide) (by decide)⟩

/-- C3: pruning equivalence.  For every state, with at least as much fuel as
empty cells, `updateAI`, which scores the candidates with the pruned `negamax`
on the window (-1000, 1000), and the same selection loops scoring them with the
unpruned search both return, and return the same state; and on every candidate
cell the two searches return the same score. -/
theorem C3_pruning_equivalence (fuel : Nat) (s : Game) (hf : countEmpty s.grid ≤ fuel) :
    (∃ s', updateAI fuel s = some s' ∧
      updateAIWith (fun g => negamaxUnpruned fuel g HUMAN_PLAYER 1 (-1000) 1000) s = some s') ∧
    ∀ x y, s.grid.at y x = none →
      ∃ score, negamax fuel (setBit s.grid x y AI_PLAYER) HUMAN_PLAYER 1 (-1000) 1000
          = some (score, setBit s.grid x y AI_PLAYER) ∧
        negamaxUnpruned fuel (setBit s.grid x y AI_PLAYER) HUMAN_PLAYER 1 (-1000) 1000
          = some (score, setBit s.grid x y AI_PLAYER) :=
  updateAI_eq_unpruned fuel s hf

theorem C3_pruning_equivalence_witness :
    countEmpty afterCentre.grid ≤ 9 ∧
      (∃ s', updateAI 9 afterCentre = some s' ∧
        updateAIWith (fun g => negamaxUnpruned 9 g HUMAN_PLAYER 1 (-1000) 1000) afterCentre
          = some s') ∧
      ∀ x y, afterCentre.grid.at y x = none →
        ∃ score, negamax 9 (setBit afterCentre.grid x y AI_PLAYER) HUMAN_PLAYER 1 (-1000) 1000
            = some (score, setBit afterCentre.grid x y AI_PLAYER) ∧
          negamaxUnpruned 9 (setBit afterCentre.grid x y AI_PLAYER) HUMAN_PLAYER 1 (-1000) 1000
            = some (score, setBit afterCentre.grid x y AI_PLAYER) :=
  ⟨by decide, C3_pruning_equivalence 9 afterCentre (by decide)⟩

/-- C4: `negamax` leaves the board as it found it.  For every grid, player, depth
and window, with more fuel than empty cells the call returns, and the grid it
hands back, after all speculative placements and removals and whether or not
the `alpha >= beta` cutoff was taken, is the grid it was given. -/
theorem C4_negamax_restores_grid (fuel : Nat) (g : Grid) (p : Fin 2) (depth alpha beta : Int)
    (h : countEmpty g < fuel) :
    ∃ score, negamax fuel g p depth alpha beta = some (score, g) :=
  negamax_returns fuel g p depth alpha beta h

theorem C4_negamax_restores_grid_witness :
    countEmpty emptyGrid < 10 ∧
      ∃ score, negamax 10 emptyGrid 0 0 (-1000) 1000 = some (score, emptyGrid) :=
  ⟨by decide, C4_negamax_restores_grid 10 emptyGrid 0 0 (-1000) 1000 (by decide)⟩

/-- C5: a top-level search changes at most the one committed move.  With at least
as much fuel as empty cells `updateAI` returns, and the state it leaves is
either the state it was given, or differs from it in one cell, empty before
and holding a piece of the AI player after, all other cells being as before,
with the turn passed from the AI player to the human player. -/
theorem C5_updateAI_frame (fuel : Nat) (s : Game) (hf : countEmpty s.grid ≤ fuel) :
    ∃ s', updateAI fuel s = some s' ∧
      (s' = s ∨
        ∃ c : Fin 3 × Fin 3, s.currentPlayer = AI_PLAYER ∧ s.grid.at c.1 c.2 = none ∧
          s'.currentPlayer = HUMAN_PLAYER ∧
          ∀ y x, s'.grid.at y x
            = if y = c.1 ∧ x = c.2 then some AI_PLAYER else s.grid.at y x) := by
  by_cases hturn : s.currentPlayer = AI_PLAYER
  · refine ⟨_, updateAI_eq fuel s hf hturn, ?_⟩
    cases hb : (selectLoop (fun g => negamaxScore fuel g HUMAN_PLAYER 1 (-1000) 1000)
        s.grid rowMajor (-1000) none).2 with
    | none => exact Or.inl rfl
    | some c =>
      right
      have hempty := selectLoop_empty _ s.grid rowMajor (-1000) none
        (by intro c0 h0; cases h0) c hb
      refine ⟨c, hturn, hempty, ?_, ?_⟩
      · simp only [commitBest, endTurn, hturn]
        rfl
      · intro y x
        simp only [commitBest, endTurn]
        exact at_setBit s.grid c.2 c.1 x y AI_PLAYER
  · exact ⟨s, updateAIWith_not_turn _ s hturn, Or.inl rfl⟩

theorem C5_updateAI_frame_witness :
    countEmpty afterCentre.grid ≤ 9 ∧
      ∃ s', updateAI 9 afterCentre = some s' ∧
        (s' = afterCentre ∨
          ∃ c : Fin 3 × Fin 3, afterCentre.currentPlayer = AI_PLAYER ∧
            afterCentre.grid.at c.1 c.2 = none ∧ s'.currentPlayer = HUMAN_PLAYER ∧
            ∀ y x, s'.grid.at y x
              = if y = c.1 ∧ x = c.2 then some AI_PLAYER else afterCentre.grid.at y x) :=
  ⟨by decide, C5_updateAI_frame 9 afterCentre (by decide)⟩

/-- C6: serialisation round trip.  For every board `g`, and whatever the board
held before, `setStateString` applied to `stateString g` gives `g` back, cell
for cell, and so the same results of `checkForWinner` and `checkForDraw`. -/
theorem C6_round_trip (g previous : Grid) :
    setStateString previous (stateString g) = g ∧
      checkForWinner (setStateString previous (stateString g)) = checkForWinner g ∧
      checkForDraw (setStateString previous (stateString g)) = checkForDraw g := by
  have h : setStateString previous (stateString g) = g := by
    apply Grid.ext_ownerAt
    intro i
    rw [ownerAt_setStateString, readChar_stateString]
    exact charCell_cellChar _
  rw [h]
  exact ⟨rfl, rfl, rfl⟩

/-- C7: serialised format.  For every board `stateString` has exactly 9
characters, the character at index `i` being '0' when the cell at row `i / 3`,
column `i % 3` is empty, '1' when it is owned by player 0 and '2' when it is
owned by player 1; on the empty board it is `initialStateString`, the text
"000000000". -/
theorem C7_stateString_format (g : Grid) :
    (stateString g).length = 9 ∧
      (∀ i : Fin 9, (stateString g).data.get? i.val
        = some (match g.at ⟨i.val / 3, by omega⟩ ⟨i.val % 3, by omega⟩ with
            | none => '0'
            | some p => if p = 0 then '1' else '2')) ∧
      stateString emptyGrid = initialStateString ∧ initialStateString = "000000000" := by
  refine ⟨?_, fun i => stateString_get g i, by decide, rfl⟩
  show (stateString g).data.length = 9
  rw [stateString_data]
  rfl

/-- C8, on the code: after `setStateString` the cell with index `i` (row `i / 3`,
column `i % 3`) is owned by player 0 when the character read for it is '1', by
player 1 when it is '2', and is empty otherwise, whatever the board held
before; the character read is the one at index `i` for every text of fewer
than `2^31` characters.  On a text of `2^31` characters '1', where the claim
gives all nine cells to player 0, `(int)s.length()` is negative, no character
is read and the board is left empty. -/
theorem C8_setStateString_int_cast (previous : Grid) :
    (∀ (s : String) (i : Fin 9),
      (setStateString previous s).at ⟨i.val / 3, by omega⟩ ⟨i.val % 3, by omega⟩
        = match readChar s i with
          | some ch => if ch = '1' then some 0 else if ch = '2' then some 1 else none
          | none => none) ∧
    (∀ (s : String) (i : Fin 9), s.length < 2147483648 →
      (setStateString previous s).at ⟨i.val / 3, by omega⟩ ⟨i.val % 3, by omega⟩
        = match s.data.get? i.val with
          | some ch => if ch = '1' then some 0 else if ch = '2' then some 1 else none
          | none => none) ∧
    longText.length = 2147483648 ∧
    (∀ i : Fin 9, longText.data.get? i.val = some '1') ∧
    toInt32 longText.length = -2147483648 ∧
    setStateString previous longText = emptyGrid := by
  have hgen : ∀ (s : String) (i : Fin 9),
      (setStateString previous s).at ⟨i.val / 3, by omega⟩ ⟨i.val % 3, by omega⟩
        = match readChar s i with
          | some ch => if ch = '1' then some 0 else if ch = '2' then some 1 else none
          | none => none := by
    intro s i
    have h := ownerAt_setStateString previous s i
    unfold ownerAt at h
    rw [h]
    cases readChar s i <;> rfl
  refine ⟨hgen, ?_, longText_length, ?_, ?_, ?_⟩
  · intro s i hlen
    rw [hgen s i, readChar_of_lt s i hlen]
  · intro i
    show (List.replicate 2147483648 '1').get? i.val = some '1'
    rw [List.get?_eq_getElem?, List.getElem?_replicate]
    have := i.isLt
    rw [if_pos (by omega)]
  · rw [longText_length]
    decide
  · apply Grid.ext_ownerAt
    intro i
    rw [ownerAt_setStateString, readChar_longText, ownerAt_emptyGrid]
    rfl

/-- C9: winner detection.  `checkForWinner` scans the eight lines in the order
rows, columns, diagonals given below; it returns player `p` exactly when the
first line whose three cells are owned by one player is owned by `p`, and it
returns none exactly when no line has its three cells owned by one player. -/
theorem C9_checkForWinner (g : Grid) :
    winningTriples
        = [(0, 1, 2), (3, 4, 5), (6, 7, 8), (0, 3, 6), (1, 4, 7), (2, 5, 8), (0, 4, 8),
            (2, 4, 6)] ∧
      (∀ p, checkForWinner g = some p ↔
        ∃ l1 t l2, winningTriples = l1 ++ t :: l2 ∧ LineOwnedBy g t p ∧
          ∀ t' ∈ l1, ∀ q, ¬LineOwnedBy g t' q) ∧
      (checkForWinner g = none ↔ ∀ t ∈ winningTriples, ∀ q, ¬LineOwnedBy g t q) := by
  refine ⟨rfl, fun p => ?_, ?_⟩
  · unfold checkForWinner
    rw [List.findSome?_eq_some_iff]
    simp only [tripleOwner_eq_some, tripleOwner_eq_none, LineOwnedBy]
  · unfold checkForWinner
    rw [List.findSome?_eq_none_iff]
    simp only [tripleOwner_eq_none, LineOwnedBy]

/-- C10, as the code has it: `checkForDraw` returns true exactly when every cell
is occupied, without looking at the winner; together with a `checkForWinner`
that returned none, which is how `negamax` and `EndOfTurn` call it, this is a
full board without winner. -/
theorem C10_checkForDraw_full_board (g : Grid) :
    (checkForDraw g = true ↔ ∀ y x, g.at y x ≠ none) ∧
      (checkForWinner g = none ∧ checkForDraw g = true ↔
        (∀ y x, g.at y x ≠ none) ∧ checkForWinner g = none) := by
  have h := checkForDraw_iff g
  refine ⟨h, ?_⟩
  rw [h]
  exact And.comm

/-- C10 as stated fails: on a full board on which player 0 owns the top row
`checkForDraw` returns true although `checkForWinner` returns a player. -/
theorem C10_counterexample :
    ¬(checkForDraw fullBoardWithWinner = true ↔
        (∀ y x, fullBoardWithWinner.at y x ≠ none) ∧
          checkForWinner fullBoardWithWinner = none) := by
  decide

/-- C11: draw detection.  On a board whose nine cells are all occupied and on
which none of the eight lines has its three cells owned by one player,
`checkForWinner` returns none and `checkForDraw` returns true. -/
theorem C11_draw_detection (g : Grid) (hfull : ∀ y x, g.at y x ≠ none)
    (hline : ∀ t ∈ winningTriples, ∀ q, ¬LineOwnedBy g t q) :
    checkForWinner g = none ∧ checkForDraw g = true :=
  ⟨(checkForWinner_eq_none_iff g).2 hline, (checkForDraw_iff g).2 hfull⟩

set_option maxRecDepth 10000 in
theorem C11_draw_detection_witness :
    (∀ y x, drawnBoard.at y x ≠ none) ∧
      (∀ t ∈ winningTriples, ∀ q, ¬LineOwnedBy drawnBoard t q) ∧
      checkForWinner drawnBoard = none ∧ checkForDraw drawnBoard = true :=
  ⟨by decide, by decide, C11_draw_detection drawnBoard (by decide) (by decide)⟩

/-- C12: undo exactness.  For every board, every empty cell and every player,
placing the player's piece on the cell (`setBit`) and then clearing the cell
(`destroyBit`), as the search does around each speculative move, gives back the
board, and so the same `stateString` as before the placement. -/
theorem C12_undo_exact (g : Grid) (x y : Fin 3) (p : Fin 2) (h : g.at y x = none) :
    stateString (destroyBit (setBit g x y p) x y) = stateString g ∧
      destroyBit (setBit g x y p) x y = g := by
  rw [destroyBit_setBit g x y p h]
  exact ⟨rfl, rfl⟩

theorem C12_undo_exact_witness :
    twoInTopRow.at 0 2 = none ∧
      stateString (destroyBit (setBit twoInTopRow 2 0 0) 2 0) = stateString twoInTopRow ∧
      destroyBit (setBit twoInTopRow 2 0 0) 2 0 = twoInTopRow :=
  ⟨by decide, C12_undo_exact twoInTopRow 2 0 0 (by decide)⟩

/-- C13: placement on an occupied cell is rejected.  On a cell that holds a
piece `actionForEmptyHolder` returns false, the `stateString` afterwards is the
one before, the piece in the cell keeps its owner, and indeed the whole state is
as before. -/
theorem C13_occupied_rejected (s : Game) (x y : Fin 3) (owner : Fin 2)
    (h : s.grid.at y x = some owner) :
    (actionForEmptyHolder s x y).1 = false ∧
      stateString (actionForEmptyHolder s x y).2.grid = stateString s.grid ∧
      (actionForEmptyHolder s x y).2.grid.at y x = some owner ∧
      (actionForEmptyHolder s x y).2 = s := by
  unfold actionForEmptyHolder
  rw [h]
  exact ⟨rfl, rfl, h, rfl⟩

theorem C13_occupied_rejected_witness :
    twoInTopRow.at 0 1 = some AI_PLAYER ∧
      (actionForEmptyHolder ⟨twoInTopRow, HUMAN_PLAYER⟩ 1 0).1 = false ∧
      stateString (actionForEmptyHolder ⟨twoInTopRow, HUMAN_PLAYER⟩ 1 0).2.grid
        = stateString twoInTopRow ∧
      (actionForEmptyHolder ⟨twoInTopRow, HUMAN_PLAYER⟩ 1 0).2.grid.at 0 1 = some AI_PLAYER ∧
      (actionForEmptyHolder ⟨twoInTopRow, HUMAN_PLAYER⟩ 1 0).2 = ⟨twoInTopRow, HUMAN_PLAYER⟩ :=
  ⟨by decide, C13_occupied_rejected ⟨twoInTopRow, HUMAN_PLAYER⟩ 1 0 AI_PLAYER (by decide)⟩

/-- C14, as the code has it: `actionForEmptyHolder` does not look at the verdict
of the game.  On every board it fails, leaving the state as it is, exactly when
the cell is occupied, so that every placement fails on a full board, a draw
included; on an empty cell it succeeds and sets a piece of the current player
there, also when the board has a winner. -/
theorem C14_placement_ignores_verdict (s : Game) (x y : Fin 3) :
    ((actionForEmptyHolder s x y).1 = false ↔ s.grid.at y x ≠ none) ∧
      ((actionForEmptyHolder s x y).1 = false → (actionForEmptyHolder s x y).2 = s) ∧
      (checkForDraw s.grid = true →
        (actionForEmptyHolder s x y).1 = false ∧ (actionForEmptyHolder s x y).2 = s) ∧
      (s.grid.at y x = none →
        (actionForEmptyHolder s x y).1 = true ∧
          (actionForEmptyHolder s x y).2
            = ⟨setBit s.grid x y s.currentPlayer, s.currentPlayer⟩) := by
  unfold actionForEmptyHolder
  cases hc : s.grid.at y x with
  | none =>
    refine ⟨by simp, by simp, ?_, fun _ => ⟨rfl, rfl⟩⟩
    intro hd
    exact absurd hc ((checkForDraw_iff s.grid).1 hd y x)
  | some o =>
    exact ⟨by simp, fun _ => rfl, fun _ => ⟨rfl, rfl⟩, fun h => by cases h⟩

/-- C14 as stated fails: on a board on which player 0 owns the top row,
`actionForEmptyHolder` on the empty cell of row 1, column 2 succeeds and changes
the board. -/
theorem C14_counterexample :
    ¬((checkForWinner wonBoard ≠ none ∨ checkForDraw wonBoard = true) →
        (actionForEmptyHolder ⟨wonBoard, AI_PLAYER⟩ 2 1).1 = false ∧
          (actionForEmptyHolder ⟨wonBoard, AI_PLAYER⟩ 2 1).2.grid = wonBoard) := by
  decide

/-- C15, as the code has it: `updateAI` makes no test for a finished game and
signals nothing.  On the AI player's turn, on a board without an empty cell, a
draw included, it returns the state as it is: no piece is placed and the turn
is not passed.  On a board that has a winner and still has an empty cell it
plays a piece of the AI player on an empty cell and passes the turn, as on any
other board; it is `RenderGame` that calls it only while the game is not
over. -/
theorem C15_updateAI_no_terminal_test (fuel : Nat) (s : Game)
    (hturn : s.currentPlayer = AI_PLAYER) :
    (checkForDraw s.grid = true → updateAI fuel s = some s) ∧
      (checkForWinner s.grid ≠ none → checkForDraw s.grid = false →
        countEmpty s.grid ≤ fuel →
        ∃ c : Fin 3 × Fin 3, s.grid.at c.1 c.2 = none ∧
          updateAI fuel s = some ⟨setBit s.grid c.2 c.1 AI_PLAYER, HUMAN_PLAYER⟩) := by
  constructor
  · intro hd
    exact updateAI_full fuel s ((checkForDraw_iff s.grid).1 hd)
  · intro _ hd hf
    obtain ⟨c0, _, hc0⟩ := exists_empty_of_not_draw s.grid hd
    obtain ⟨_, c, _, _, _, hc, _, hu, _⟩ :=
      updateAI_first_best fuel s hf hturn ⟨c0.1, c0.2, hc0⟩
    exact ⟨c, hc, hu⟩

theorem C15_updateAI_no_terminal_test_witness :
    AI_PLAYER = AI_PLAYER ∧
      (checkForDraw drawnBoard = true →
        updateAI 9 ⟨drawnBoard, AI_PLAYER⟩ = some ⟨drawnBoard, AI_PLAYER⟩) ∧
      (checkForWinner wonBoard ≠ none → checkForDraw wonBoard = false →
        countEmpty wonBoard ≤ 9 →
        ∃ c : Fin 3 × Fin 3, wonBoard.at c.1 c.2 = none ∧
          updateAI 9 ⟨wonBoard, AI_PLAYER⟩
            = some ⟨setBit wonBoard c.2 c.1 AI_PLAYER, HUMAN_PLAYER⟩) :=
  ⟨rfl, (C15_updateAI_no_terminal_test 9 ⟨drawnBoard, AI_PLAYER⟩ rfl).1,
    (C15_updateAI_no_terminal_test 9 ⟨wonBoard, AI_PLAYER⟩ rfl).2⟩

/-- C15 as stated fails: on a board on which player 0 owns the top row and four
cells are empty, `updateAI` on the AI player's turn does not leave the state as
it is: it plays the cell of row 1, column 2 and passes the turn. -/
theorem C15_counterexample :
    ¬((checkForWinner wonBoard ≠ none ∨ checkForDraw wonBoard = true) →
        (updateAI 9 ⟨wonBoard, AI_PLAYER⟩).map (fun s' => (s'.grid, s'.currentPlayer))
          = some (wonBoard, AI_PLAYER)) := by
  decide

/-- C16: turn alternation.  From the empty board with player 0 to move, after
any sequence of successful placements of the current player's piece, each
followed by the passing of the turn, made through `actionForEmptyHolder` or by
`updateAI`, the number of cells of player 0 minus the number of cells of
player 1 is 0 or 1: it is 0 when player 0 is to move and 1 when player 1 is. -/
theorem C16_turn_alternation (s : Game) (h : Played s) :
    ((countOwned s.grid 0 : Int) - (countOwned s.grid 1 : Int) = 0 ∨
        (countOwned s.grid 0 : Int) - (countOwned s.grid 1 : Int) = 1) ∧
      (countOwned s.grid 0 : Int) - (countOwned s.grid 1 : Int) = (s.currentPlayer.val : Int) := by
  have hinv := played_inv s h
  have h2 : s.currentPlayer.val = 0 ∨ s.currentPlayer.val = 1 := by omega
  omega

theorem C16_turn_alternation_witness :
    Played afterCentre ∧
      ((countOwned afterCentre.grid 0 : Int) - (countOwned afterCentre.grid 1 : Int) = 0 ∨
        (countOwned afterCentre.grid 0 : Int) - (countOwned afterCentre.grid 1 : Int) = 1) ∧
      (countOwned afterCentre.grid 0 : Int) - (countOwned afterCentre.grid 1 : Int)
        = (afterCentre.currentPlayer.val : Int) :=
  ⟨Played.place ⟨emptyGrid, HUMAN_PLAYER⟩ 1 1 Played.start (by decide),
    C16_turn_alternation afterCentre
      (Played.place ⟨emptyGrid, HUMAN_PLAYER⟩ 1 1 Played.start (by decide))⟩

/-- C17: top-level tie-break.  On the AI player's turn, on a board with an empty
cell, `updateAI` plays a cell `c` and passes the turn, where `c` is empty, every
empty cell before `c` in row-major order has a score smaller than the score of
`c`, and every empty cell after `c` has a score at most the score of `c`; the
score of a cell is `-negamax` on the board with the AI player's piece on it,
for the human player at depth 1 with the window (-1000, 1000). -/
theorem C17_tie_break (fuel : Nat) (s : Game) (hf : countEmpty s.grid ≤ fuel)
    (hturn : s.currentPlayer = AI_PLAYER) (hempty : ∃ y x, s.grid.at y x = none) :
    ∃ l1 c l2 sc, rowMajor = l1 ++ c :: l2 ∧ s.grid.at c.1 c.2 = none ∧
      candidateScore fuel s.grid c = some sc ∧
      updateAI fuel s = some ⟨setBit s.grid c.2 c.1 AI_PLAYER, HUMAN_PLAYER⟩ ∧
      (∀ a ∈ l1, s.grid.at a.1 a.2 = none →
        ∃ sa, candidateScore fuel s.grid a = some sa ∧ sa < sc) ∧
      (∀ a ∈ l2, s.grid.at a.1 a.2 = none →
        ∃ sa, candidateScore fuel s.grid a = some sa ∧ sa ≤ sc) :=
  updateAI_first_best fuel s hf hturn hempty

theorem C17_tie_break_witness :
    countEmpty afterCentre.grid ≤ 9 ∧ afterCentre.currentPlayer = AI_PLAYER ∧
      (∃ y x, afterCentre.grid.at y x = none) ∧
      ∃ l1 c l2 sc, rowMajor = l1 ++ c :: l2 ∧ afterCentre.grid.at c.1 c.2 = none ∧
        candidateScore 9 afterCentre.grid c = some sc ∧
        updateAI 9 afterCentre
          = some ⟨setBit afterCentre.grid c.2 c.1 AI_PLAYER, HUMAN_PLAYER⟩ ∧
        (∀ a ∈ l1, afterCentre.grid.at a.1 a.2 = none →
          ∃ sa, candidateScore 9 afterCentre.grid a = some sa ∧ sa < sc) ∧
        (∀ a ∈ l2, afterCentre.grid.at a.1 a.2 = none →
          ∃ sa, candidateScore 9 afterCentre.grid a = some sa ∧ sa ≤ sc) :=
  ⟨by decide, rfl, ⟨0, 0, by decide⟩,
    C17_tie_break 9 afterCentre (by decide) rfl ⟨0, 0, by decide⟩⟩

/-- C18: terminal evaluation.  On a board on which `checkForWinner` returns a
player `w`, `negamax` returns `10 - depth` when `w` is the player it is called
for and `-10 + depth` otherwise, for every window, and it does so with fuel for
a single call, that is without a recursive call; on a board without winner and
without empty cell it returns 0.  The winner is tested first: a full board with
a winner gets the score of the win or loss, which is not 0 unless the depth
is 10. -/
theorem C18_terminal_evaluation (fuel : Nat) (g : Grid) (p : Fin 2) (depth alpha beta : Int) :
    (∀ w, checkForWinner g = some w →
      negamax (fuel + 1) g p depth alpha beta
        = some (if w = p then 10 - depth else -10 + depth, g)) ∧
    (checkForWinner g = none → (∀ y x, g.at y x ≠ none) →
      negamax (fuel + 1) g p depth alpha beta = some (0, g)) ∧
    (checkForWinner g ≠ none → checkForDraw g = true → depth ≠ 10 →
      ∃ r, negamax (fuel + 1) g p depth alpha beta = some (r, g) ∧ r ≠ 0) := by
  have hwin : ∀ w, checkForWinner g = some w →
      negamax (fuel + 1) g p depth alpha beta
        = some (if w = p then 10 - depth else -10 + depth, g) := by
    intro w hw
    unfold negamax
    rw [hw]
    by_cases h : w = p
    · simp [h]
    · simp [h]
  refine ⟨hwin, ?_, ?_⟩
  · intro hw hfull
    unfold negamax
    rw [hw]
    simp only []
    rw [if_pos ((checkForDraw_iff g).2 hfull)]
  · intro hw _ hd
    cases hc : checkForWinner g with
    | none => exact absurd hc hw
    | some w =>
      refine ⟨_, hwin w hc, ?_⟩
      by_cases h : w = p
      · rw [if_pos h]; omega
      · rw [if_neg h]; omega

theorem C18_terminal_evaluation_witness :
    checkForWinner fullBoardWithWinner = some HUMAN_PLAYER ∧
      checkForDraw fullBoardWithWinner = true ∧
      negamax 1 fullBoardWithWinner AI_PLAYER 1 (-1000) 1000
        = some (if HUMAN_PLAYER = AI_PLAYER then 10 - 1 else -10 + 1, fullBoardWithWinner) ∧
      (checkForWinner drawnBoard = none → (∀ y x, drawnBoard.at y x ≠ none) →
        negamax 1 drawnBoard AI_PLAYER 1 (-1000) 1000 = some (0, drawnBoard)) :=
  ⟨by decide, by decide,
    (C18_terminal_evaluation 0 fullBoardWithWinner AI_PLAYER 1 (-1000) 1000).1 HUMAN_PLAYER
      (by decide),
    (C18_terminal_evaluation 0 drawnBoard AI_PLAYER 1 (-1000) 1000).2.1⟩

/-- C19: at most one winning player on boards met in play.  On every board
reached from the empty board by placements in turn on empty cells, player 0
first, play stopping as soon as `checkForWinner` returns a player or the board
is full, all lines whose three cells are owned by one player have the same
owner; and scanning the eight lines in any other order returns the same player
as `checkForWinner`. -/
theorem C19_one_winner (s : Game) (h : LegalPlay s) :
    (∀ t ∈ winningTriples, ∀ t' ∈ winningTriples, ∀ p q,
      LineOwnedBy s.grid t p → LineOwnedBy s.grid t' q → p = q) ∧
    ∀ ts : List (Fin 9 × Fin 9 × Fin 9), ts.Perm winningTriples →
      ts.findSome? (tripleOwner s.grid) = checkForWinner s.grid :=
  ⟨legalPlay_one_owner s h,
    fun ts hperm => findSome_perm_of_one_owner s.grid ts hperm (legalPlay_one_owner s h)⟩

theorem C19_one_winner_witness :
    LegalPlay afterCentre ∧
      (∀ t ∈ winningTriples, ∀ t' ∈ winningTriples, ∀ p q,
        LineOwnedBy afterCentre.grid t p → LineOwnedBy afterCentre.grid t' q → p = q) ∧
      ∀ ts : List (Fin 9 × Fin 9 × Fin 9), ts.Perm winningTriples →
        ts.findSome? (tripleOwner afterCentre.grid) = checkForWinner afterCentre.grid :=
  ⟨LegalPlay.place ⟨emptyGrid, HUMAN_PLAYER⟩ 1 1 LegalPlay.start (by decide) (by decide)
      (by decide),
    C19_one_winner afterCentre
      (LegalPlay.place ⟨emptyGrid, HUMAN_PLAYER⟩ 1 1 LegalPlay.start (by decide) (by decide)
        (by decide))⟩

/-- C20: score range of the search.  For every board and every empty cell the
call of `negamax` that `updateAI` makes for the cell returns, and the score
`updateAI` computes from it lies between -9 and 9, so that the value returned is
not the initial -1000; and the loops of `updateAI` end with a best score below
10, so that neither `break` was taken, with the result of the same loops
without the two `break`s. -/
theorem C20_score_range (fuel : Nat) (g : Grid) (hf : countEmpty g ≤ fuel) :
    (∀ c : Fin 3 × Fin 3, g.at c.1 c.2 = none →
      ∃ r, negamax fuel (setBit g c.2 c.1 AI_PLAYER) HUMAN_PLAYER 1 (-1000) 1000
          = some (r, setBit g c.2 c.1 AI_PLAYER) ∧
        candidateScore fuel g c = some (-r) ∧ -9 ≤ -r ∧ -r ≤ 9 ∧ r ≠ -1000) ∧
    ∃ st, updateAIRows (fun g' => negamax fuel g' HUMAN_PLAYER 1 (-1000) 1000) [0, 1, 2]
          ⟨g, -1000, none⟩ = some st ∧
      st.bestScore < 10 ∧ st.grid = g ∧
      (st.bestScore, st.best)
        = selectLoop (fun g' => negamaxScore fuel g' HUMAN_PLAYER 1 (-1000) 1000) g rowMajor
            (-1000) none := by
  have hs : ∀ x y, g.at y x = none →
      negamax fuel (setBit g x y AI_PLAYER) HUMAN_PLAYER 1 (-1000) 1000
        = some (negamaxScore fuel (setBit g x y AI_PLAYER) HUMAN_PLAYER 1 (-1000) 1000,
            setBit g x y AI_PLAYER) := by
    intro x y hxy
    have := countEmpty_setBit g x y AI_PLAYER hxy
    exact negamax_eq_score fuel _ _ _ _ _ (by omega)
  have hlt : ∀ x y, g.at y x = none →
      -negamaxScore fuel (setBit g x y AI_PLAYER) HUMAN_PLAYER 1 (-1000) 1000 < 10 := by
    intro x y hxy
    have := candidate_bound fuel g x y hxy
    omega
  constructor
  · intro c hc
    have hb := candidate_bound fuel g c.2 c.1 hc
    refine ⟨_, hs c.2 c.1 hc, candidateScore_eq fuel g c hf hc, ?_, ?_, ?_⟩ <;> omega
  · have hrows := updateAIRows_eq (fun g' => negamax fuel g' HUMAN_PLAYER 1 (-1000) 1000)
      (fun g' => negamaxScore fuel g' HUMAN_PLAYER 1 (-1000) 1000) g hs hlt [0, 1, 2]
      (-1000) none (by omega)
    have hrm : ([0, 1, 2].flatMap fun y => [0, 1, 2].map fun x => (y, x)) = rowMajor := rfl
    rw [hrm] at hrows
    refine ⟨_, hrows, ?_, rfl, rfl⟩
    exact selectLoop_lt _ g 10 hlt rowMajor (-1000) none (by omega)

theorem C20_score_range_witness :
    countEmpty afterCentre.grid ≤ 9 ∧
      (∀ c : Fin 3 × Fin 3, afterCentre.grid.at c.1 c.2 = none →
        ∃ r, negamax 9 (setBit afterCentre.grid c.2 c.1 AI_PLAYER) HUMAN_PLAYER 1 (-1000) 1000
            = some (r, setBit afterCentre.grid c.2 c.1 AI_PLAYER) ∧
          candidateScore 9 afterCentre.grid c = some (-r) ∧ -9 ≤ -r ∧ -r ≤ 9 ∧ r ≠ -1000) ∧
      ∃ st, updateAIRows (fun g' => negamax 9 g' HUMAN_PLAYER 1 (-1000) 1000) [0, 1, 2]
            ⟨afterCentre.grid, -1000, none⟩ = some st ∧
        st.bestScore < 10 ∧ st.grid = afterCentre.grid ∧
        (st.bestScore, st.best)
          = selectLoop (fun g' => negamaxScore 9 g' HUMAN_PLAYER 1 (-1000) 1000)
              afterCentre.grid rowMajor (-1000) none :=
  ⟨by decide, C20_score_range 9 afterCentre.grid (by decide)⟩

end TicTacToe
